import Mathlib

/-!
Verification development for the Document-Chunking-App repository.

Strings are modelled as `List Char` (`Str`).  Functions from `src/chunking.py`,
`src/batchProcessor.py` and `src/utils.py` are embedded as executable Lean
definitions; the external libraries the code calls (tiktoken tokenizer,
langchain splitters, Python codecs) are modelled from the specification, each
such definition carrying a doc comment that says so.
-/

namespace DocChunk

/-- Strings are modelled as lists of characters. -/
abbrev Str := List Char

/-- Convert a Lean string literal to the `Str` model. -/
def str (s : String) : Str := s.data

/-- Python's Unicode whitespace set, as matched by `str.strip()`, `str.lstrip()`
and the regex class `\s` when applied to `str` values. -/
def isPySpace (c : Char) : Bool :=
  c = ' ' ∨ c = '\t' ∨ c = '\n' ∨ c = '\r' ∨
  c.toNat = 0x0B ∨ c.toNat = 0x0C ∨
  c.toNat = 0x1C ∨ c.toNat = 0x1D ∨ c.toNat = 0x1E ∨ c.toNat = 0x1F ∨
  c.toNat = 0x85 ∨ c.toNat = 0xA0 ∨ c.toNat = 0x1680 ∨
  (0x2000 ≤ c.toNat ∧ c.toNat ≤ 0x200A) ∨
  c.toNat = 0x2028 ∨ c.toNat = 0x2029 ∨ c.toNat = 0x202F ∨
  c.toNat = 0x205F ∨ c.toNat = 0x3000

/-- Python `str.lstrip()`. -/
def pyLStrip (s : Str) : Str := s.dropWhile isPySpace

/-- Python `str.rstrip()`. -/
def pyRStrip (s : Str) : Str := (s.reverse.dropWhile isPySpace).reverse

/-- Python `str.strip()`. -/
def pyStrip (s : Str) : Str := pyRStrip (pyLStrip s)

/-- Line-break characters recognised by Python `str.splitlines()`. -/
def isLineSep (c : Char) : Bool :=
  c = '\n' ∨ c = '\r' ∨ c.toNat = 0x0B ∨ c.toNat = 0x0C ∨
  c.toNat = 0x1C ∨ c.toNat = 0x1D ∨ c.toNat = 0x1E ∨
  c.toNat = 0x85 ∨ c.toNat = 0x2028 ∨ c.toNat = 0x2029

/-- Worker for `splitLines`: `cur` holds the (reversed) characters of the line
being scanned; a `"\r\n"` pair counts as a single line break. -/
def splitLinesGo (cur : Str) : Str → List Str
  | [] => if cur = [] then [] else [cur.reverse]
  | [c] => if isLineSep c then [cur.reverse] else [(c :: cur).reverse]
  | c1 :: c2 :: t =>
    if c1 = '\r' ∧ c2 = '\n' then
      cur.reverse :: splitLinesGo [] t
    else if isLineSep c1 then
      cur.reverse :: splitLinesGo [] (c2 :: t)
    else
      splitLinesGo (c1 :: cur) (c2 :: t)

/-- Python `str.splitlines()` (no `keepends`). -/
def splitLines (s : Str) : List Str := splitLinesGo [] s

/-- Join a list of lines with a single newline, as `"\n".join(lines)`. -/
def joinNL (ls : List Str) : Str := (ls.intersperse [ '\n' ]).flatten

/-- Split a string on every occurrence of the single character `sep`
(Python `str.split(sep)` for a one-character separator). -/
def splitOnChar (sep : Char) : Str → List Str
  | [] => [[]]
  | c :: t =>
    let r := splitOnChar sep t
    if c = sep then [] :: r
    else match r with
      | [] => [[c]]
      | h :: t2 => (c :: h) :: t2

/-- Does `pat` occur as a contiguous substring of `s`?  (Python `pat in s`.) -/
def containsSub (pat : Str) : Str → Bool
  | [] => pat = []
  | c :: t => pat.isPrefixOf (c :: t) || containsSub pat t

/-- Number of leading occurrences of `c`. -/
def countLeading (c : Char) (s : Str) : Nat := (s.takeWhile (· = c)).length

/-- Modelled from the spec: the Tokenizer (`count_tokens` in `src/chunking.py`
delegates to the external tiktoken library, absent here).  The spec treats it
as an opaque size measure ("converts text to a token count using a fixed
subword vocabulary; used only for size measurement"); it is instantiated as
per-character counting, the degenerate subword vocabulary. -/
def count_tokens (s : Str) : Nat := s.length

/-- Worker for `splitOnSub`: left-to-right non-overlapping scan for the
pattern `c :: cs`.  `skip` counts separator characters still to be consumed
after a match, `cur` holds the (reversed) current segment, `acc` the
(reversed) finished segments. -/
def splitOnSubGo (c : Char) (cs : Str) (skip : Nat) (cur : Str)
    (acc : List Str) : Str → List Str
  | [] => (cur.reverse :: acc).reverse
  | b :: t =>
    match skip with
    | n + 1 => splitOnSubGo c cs n cur acc t
    | 0 =>
      if (c :: cs).isPrefixOf (b :: t) then
        splitOnSubGo c cs cs.length [] (cur.reverse :: acc) t
      else
        splitOnSubGo c cs 0 (b :: cur) acc t

/-- Split `s` on the non-empty separator `sep = c :: cs`, Python
`str.split(sep)` style. -/
def splitOnSub (c : Char) (cs : Str) (s : Str) : List Str :=
  splitOnSubGo c cs 0 [] [] s

/-- Worker for `hardCut`: `acc` is the (reversed) current piece, `k` the
remaining capacity of that piece. -/
def hardCutGo (n : Nat) (acc : Str) : Nat → Str → List Str
  | _, [] => [acc.reverse]
  | 0, c :: t => acc.reverse :: hardCutGo n [c] n t
  | k + 1, c :: t => hardCutGo n (c :: acc) k t

/-- Hard character-level cut into pieces of `n + 1` characters each. -/
def hardCut (n : Nat) : Str → List Str
  | [] => []
  | c :: t => hardCutGo n [c] n t

/-- Modelled from the spec: the separator priority list of the Recursive Text
Splitter (coarse to fine: double newline, single newline, sentence-ending
punctuation, space), before the final character-level hard cut. -/
def defaultSeps : List (Char × Str) :=
  [('\n', [ '\n' ]), ('\n', []), ('.', [ ' ' ]), (' ', [])]

/-- Modelled from the spec: recursion core of the Recursive Text Splitter
(`RecursiveCharacterTextSplitter.from_tiktoken_encoder(...).split_text` is an
external langchain component, absent here).  Only called on text over budget:
split on the coarsest separator; keep pieces within budget, recurse with the
next-finer separator on pieces still over budget; when no separator helps,
hard-cut at the character boundary (one character when the budget is not
positive, which guarantees progress). -/
def splitPieces (budget : Int) : List (Char × Str) → Str → List Str
  | [], text => hardCut (budget - 1).toNat text
  | (c, cs) :: rest, text =>
    let ps := (splitOnSub c cs text).filter (· ≠ [])
    if ps.length ≤ 1 then splitPieces budget rest text
    else ps.flatMap (fun p =>
      if (p.length : Int) ≤ budget then [p] else splitPieces budget rest p)

/-- Modelled from the spec: the Recursive Text Splitter.  Returns the empty
sequence for empty input; a single piece when the whole text fits the budget;
otherwise splits recursively by `splitPieces`.  The overlap argument is
carried for interface fidelity; the spec only requires consecutive pieces to
share *up to* `chunk_overlap` tokens, which zero sharing satisfies. -/
def splitText (budget : Int) (overlap : Int) (text : Str) : List Str :=
  if text = [] then []
  else if (count_tokens text : Int) ≤ budget then [text]
  else splitPieces budget defaultSeps text

/-- Section metadata produced by the Heading Splitter: the `H1` / `H2` entries
of the langchain document metadata dictionary (`none` = key absent). -/
structure SecMeta where
  h1 : Option Str
  h2 : Option Str
  deriving DecidableEq

/-- Python truthiness of `metadata.get(key)`: the key is present and its value
is a non-empty string. -/
def optTruthy : Option Str → Bool
  | none => false
  | some s => s ≠ []

/-- Modelled from the spec: heading-line recognition of the Heading Splitter
(`MarkdownHeaderTextSplitter` is an external langchain component, absent
here).  A line is a level-`k` heading when, after stripping surrounding
whitespace, it consists of exactly `k` leading `#` characters followed by
nothing or by a space; the returned label is the stripped remainder. -/
def headingAt (k : Nat) (line : Str) : Option Str :=
  let st := pyStrip line
  if countLeading '#' st = k ∧ 1 ≤ k ∧
      (st.length = k ∨ st.get? k = some ' ') then
    some (pyStrip (st.drop k))
  else none

/-- Modelled from the spec: single-level Heading Splitter.  Walks the lines,
starting a new section at each level-`k` heading; text before the first
heading forms a section with no heading label; a section is emitted only when
its text is non-blank (a heading with no body yields no section).  `cur` is
the pending heading label, `acc` the reversed pending content lines. -/
def splitByLevelGo (k : Nat) (cur : Option Str) (acc : List Str) :
    List Str → List (Option Str × Str)
  | [] =>
    let content := joinNL acc.reverse
    if pyStrip content = [] then [] else [(cur, content)]
  | line :: rest =>
    match headingAt k line with
    | some h =>
      let content := joinNL acc.reverse
      let flushed := if pyStrip content = [] then [] else [(cur, content)]
      flushed ++ splitByLevelGo k (some h) [] rest
    | none => splitByLevelGo k cur (line :: acc) rest

/-- Modelled from the spec: the Heading Splitter configured with a single
heading level, as used by `h1_heading_based_chunking`. -/
def splitByLevel (k : Nat) (md : Str) : List (Option Str × Str) :=
  splitByLevelGo k none [] (splitOnChar '\n' md)

/-- Modelled from the spec: the Heading Splitter configured with levels 1 and
2 simultaneously, as used by `h2_heading_based_chunking`.  A level-1 heading
clears any previous level-2 label (hierarchy popping); a level-2 heading
replaces the previous level-2 label and keeps the enclosing level-1 label. -/
def splitByH1H2Go (cur : SecMeta) (acc : List Str) :
    List Str → List (SecMeta × Str)
  | [] =>
    let content := joinNL acc.reverse
    if pyStrip content = [] then [] else [(cur, content)]
  | line :: rest =>
    let content := joinNL acc.reverse
    let flushed := if pyStrip content = [] then [] else [(cur, content)]
    match headingAt 1 line with
    | some h => flushed ++ splitByH1H2Go ⟨some h, none⟩ [] rest
    | none =>
      match headingAt 2 line with
      | some h => flushed ++ splitByH1H2Go ⟨cur.h1, some h⟩ [] rest
      | none => splitByH1H2Go cur (line :: acc) rest

/-- Modelled from the spec: two-level Heading Splitter entry point. -/
def splitByH1H2 (md : Str) : List (SecMeta × Str) :=
  splitByH1H2Go ⟨none, none⟩ [] (splitOnChar '\n' md)

/-- The "meaningful split" predicate of `h1_heading_based_chunking`
(`src/chunking.py` lines 114-117 and 128-131): more than one section, or
exactly one section whose tested metadata entry is truthy. -/
def meaningfulSplit (docs : List (Option Str × Str)) : Bool :=
  decide (docs.length > 1) ||
  (match docs with
   | [d] => optTruthy d.1
   | _ => false)

/-- Chunk dictionary `{"text": ..., "heading": ...}` emitted by the three
strategies.  `heading` is `Option Str` because `h2_heading_based_chunking`
stores Python `None` there while the other strategies store strings. -/
structure Chunk where
  text : Str
  heading : Option Str
  deriving DecidableEq

/-- Embeds `fixed_size_chunking` (`src/chunking.py` lines 84-94): run the
Recursive Text Splitter on the whole markdown text, keep the non-blank pieces
stripped, heading always the empty string. -/
def fixed_size_chunking (md : Str) (chunk_size chunk_overlap : Int) :
    List Chunk :=
  let split_texts := splitText chunk_size chunk_overlap md
  (split_texts.filter (fun t => t ≠ [] ∧ pyStrip t ≠ [])).map
    (fun t => ⟨pyStrip t, some []⟩)

/-- A continuation chunk body: `"(continued)\n\n"`. -/
def contTail : Str := str " (continued)\n\n"

/-- The bare continuation marker used when a section has no heading line. -/
def contBare : Str := str "(continued)\n\n"

/-- Two newlines, the join used between a heading line and a body. -/
def nl2 : Str := [ '\n', '\n' ]

/-- Chunk construction inside the h1 overflow loop (`src/chunking.py` lines
194-207): index 0 gets the bare heading line, later indices the
"(continued)" marker. -/
def h1Emit (heading_line heading : Str) (i : Nat) (sub : Str) : Chunk :=
  if i = 0 then
    ⟨if heading_line ≠ [] then heading_line ++ nl2 ++ sub else sub,
     some heading⟩
  else
    ⟨if heading_line ≠ [] then heading_line ++ contTail ++ sub
     else contBare ++ sub,
     some heading⟩

/-- Fuel-indexed worker for `h1LoopGo`; the wrapper supplies fuel
`cur.length - i`, which the loop maintains because `List.set` preserves
length. -/
def h1LoopFuel (chunk_size threshold overhead : Int)
    (heading_line heading : Str) : Nat → Nat → List Str → List Chunk
  | 0, _, _ => []
  | fuel + 1, i, cur =>
    if h : i < cur.length then
      let sub := pyStrip (cur.get ⟨i, h⟩)
      if hm : i + 1 < cur.length then
        let nxt := cur.get ⟨i + 1, hm⟩
        if (count_tokens sub + count_tokens nxt : Int) + overhead ≤ chunk_size ∧
            (count_tokens nxt : Int) < threshold then
          h1LoopFuel chunk_size threshold overhead heading_line heading fuel
            (i + 1) (cur.set (i + 1) (sub ++ nl2 ++ pyStrip nxt))
        else
          h1Emit heading_line heading i sub ::
            h1LoopFuel chunk_size threshold overhead heading_line heading fuel
              (i + 1) cur
      else
        h1Emit heading_line heading i sub ::
          h1LoopFuel chunk_size threshold overhead heading_line heading fuel
            (i + 1) cur
    else []

/-- Embeds the h1 overflow loop (`src/chunking.py` lines 179-207) literally:
`cur` is the live `sub_chunks` list, `i` the loop index; a merge overwrites
slot `i + 1` and emits nothing for slot `i`. -/
def h1LoopGo (chunk_size threshold overhead : Int)
    (heading_line heading : Str) (i : Nat) (cur : List Str) : List Chunk :=
  h1LoopFuel chunk_size threshold overhead heading_line heading
    (cur.length - i) i cur

/-- Heading label and heading line chosen for one h1-strategy section
(`src/chunking.py` lines 144-153): a truthy `H1` gives `"# <h>"`, otherwise a
truthy `H2` gives `"## <h>"`, otherwise both are empty. -/
def h1HeadingOf (meta : SecMeta) : Str × Str :=
  if optTruthy meta.h1 then
    (meta.h1.getD [], str "# " ++ meta.h1.getD [])
  else if optTruthy meta.h2 then
    (meta.h2.getD [], str "## " ++ meta.h2.getD [])
  else ([], [])

/-- The continuation overhead of one h1-strategy section (`src/chunking.py`
lines 165-168). -/
def h1Overhead (heading_line : Str) : Nat :=
  if heading_line ≠ [] then count_tokens (heading_line ++ contTail)
  else count_tokens contBare

/-- Embeds the per-section body of `h1_heading_based_chunking`
(`src/chunking.py` lines 140-207). -/
def h1SectionChunks (chunk_size chunk_overlap threshold : Int)
    (meta : SecMeta) (content : Str) : List Chunk :=
  let section_text := pyStrip content
  let hh := h1HeadingOf meta
  let heading := hh.1
  let heading_line := hh.2
  let full_content :=
    if heading_line ≠ [] then heading_line ++ nl2 ++ section_text
    else section_text
  if (count_tokens full_content : Int) ≤ chunk_size then
    [⟨full_content, some heading⟩]
  else
    let continuation_overhead : Int := h1Overhead heading_line
    let available_size := chunk_size - continuation_overhead
    let sub_chunks := splitText available_size chunk_overlap section_text
    h1LoopGo chunk_size threshold continuation_overhead heading_line heading 0
      sub_chunks

/-- The section list `h1_heading_based_chunking` ends up iterating over
(`src/chunking.py` lines 106-137): level-1 sections when that split is
meaningful, else level-2 sections when that split is meaningful, else none
(signalled by `none`, triggering the fixed-size fallback). -/
def h1Docs (md : Str) : Option (List (SecMeta × Str)) :=
  let docs1 := splitByLevel 1 md
  if meaningfulSplit docs1 then
    some (docs1.map (fun d => (⟨d.1, none⟩, d.2)))
  else
    let docs2 := splitByLevel 2 md
    if meaningfulSplit docs2 then
      some (docs2.map (fun d => (⟨none, d.1⟩, d.2)))
    else none

/-- Embeds `h1_heading_based_chunking` (`src/chunking.py` lines 96-209). -/
def h1_heading_based_chunking (md : Str)
    (chunk_size chunk_overlap threshold : Int) : List Chunk :=
  match h1Docs md with
  | none => fixed_size_chunking md chunk_size chunk_overlap
  | some docs =>
    docs.flatMap (fun d =>
      h1SectionChunks chunk_size chunk_overlap threshold d.1 d.2)

/-- Heading value of one h2-strategy section (`src/chunking.py` lines
231-236): the most specific truthy label, `none` when neither level is
present (Python `None`). -/
def h2HeadingOf (meta : SecMeta) : Option Str :=
  if optTruthy meta.h2 then meta.h2
  else if optTruthy meta.h1 then meta.h1
  else none

/-- Heading line of one h2-strategy section (`src/chunking.py` line 238):
always level-2 syntax, empty when the heading is not truthy. -/
def h2HeadingLine (heading : Option Str) : Str :=
  if optTruthy heading then str "## " ++ heading.getD [] else []

/-- Embeds the per-section body of `h2_heading_based_chunking`
(`src/chunking.py` lines 227-268), with the Python `enumerate` loop rendered
as a map over `List.enum`. -/
def h2SectionChunks (chunk_size chunk_overlap : Int)
    (meta : SecMeta) (content : Str) : List Chunk :=
  let section_text := pyStrip content
  let heading := h2HeadingOf meta
  let heading_line := h2HeadingLine heading
  let full_content :=
    if heading_line ≠ [] then heading_line ++ nl2 ++ section_text
    else section_text
  if (count_tokens full_content : Int) ≤ chunk_size then
    [⟨full_content, heading⟩]
  else
    let sub_chunks :=
      splitText (chunk_size - (count_tokens heading_line : Int) - 50)
        chunk_overlap section_text
    sub_chunks.enum.map (fun p =>
      let sub := pyStrip p.2
      if p.1 = 0 then
        ⟨if heading_line ≠ [] then heading_line ++ nl2 ++ sub else sub,
         heading⟩
      else
        ⟨if heading_line ≠ [] then heading_line ++ contTail ++ sub
         else contBare ++ sub,
         heading⟩)

/-- Embeds `h2_heading_based_chunking` (`src/chunking.py` lines 211-270). -/
def h2_heading_based_chunking (md : Str) (chunk_size chunk_overlap : Int) :
    List Chunk :=
  (splitByH1H2 md).flatMap (fun d =>
    h2SectionChunks chunk_size chunk_overlap d.1 d.2)

/-- Regex `^\s*(```|~~~)` of `clean_chunk_text`: a code-fence line. -/
def isFenceLine (l : Str) : Bool :=
  (str "```").isPrefixOf (l.dropWhile isPySpace) ||
  (str "~~~").isPrefixOf (l.dropWhile isPySpace)

/-- Regex `^\s*\|.*\|$` of `clean_chunk_text`: a table line (a `|` after
optional whitespace, and the line ends with a further `|`). -/
def isTableLine (l : Str) : Bool :=
  match l.dropWhile isPySpace with
  | [] => false
  | c :: t => c = '|' ∧ t ≠ [] ∧ t.getLast? = some '|'

/-- Regex `^\s*#{1,6}\s` of `clean_chunk_text`: a markdown heading line. -/
def isHeadingLine (l : Str) : Bool :=
  let t := l.dropWhile isPySpace
  let n := countLeading '#' t
  1 ≤ n ∧ n ≤ 6 ∧ (t.get? n).any isPySpace

/-- Regex `^\s*[-=]{3,}\s*$` of `clean_chunk_text`: a horizontal-rule line. -/
def isDashEqLine (l : Str) : Bool :=
  let t := l.dropWhile isPySpace
  let run := t.takeWhile (fun c => c = '-' ∨ c = '=')
  3 ≤ run.length ∧ (t.drop run.length).all isPySpace

/-- Is `c` a tab or carriage return? -/
def isTabCr (c : Char) : Bool := c = '\t' ∨ c = '\r'

/-- Worker for `tabCrToSpace`: `inRun` records whether the previous character
belonged to a tab/CR run (whose single replacement space is already
emitted). -/
def tabCrGo (inRun : Bool) : Str → Str
  | [] => []
  | c :: t =>
    if isTabCr c then
      if inRun then tabCrGo true t else ' ' :: tabCrGo true t
    else c :: tabCrGo false t

/-- Regex substitution `[\t\r]+` → single space (`clean_chunk_text` line
216): each maximal run of tabs and carriage returns becomes one space. -/
def tabCrToSpace (s : Str) : Str := tabCrGo false s

/-- Worker for `collapseSpaces`: `inRun` records whether the previous
character was a space. -/
def collapseSpacesGo (inRun : Bool) : Str → Str
  | [] => []
  | c :: t =>
    if c = ' ' then
      if inRun then collapseSpacesGo true t else ' ' :: collapseSpacesGo true t
    else c :: collapseSpacesGo false t

/-- Regex substitution `" {2,}"` → single space (`clean_chunk_text` line
219): each maximal run of spaces becomes one space. -/
def collapseSpaces (s : Str) : Str := collapseSpacesGo false s

/-- Characters removed by `clean_chunk_text` line 222: the C0 and C1 control
ranges `[\x00-\x1F\x7F-\x9F]`. -/
def isCtl (c : Char) : Bool :=
  c.toNat ≤ 0x1F ∨ (0x7F ≤ c.toNat ∧ c.toNat ≤ 0x9F)

/-- Characters exempt from the repetition collapse (`[^#\-=]` in
`clean_chunk_text` line 226). -/
def isRepExempt (c : Char) : Bool := c = '#' ∨ c = '-' ∨ c = '='

/-- Emit one maximal run of `n + 1` copies of `p` after repetition collapse:
six or more copies of a non-exempt character become a single copy. -/
def emitRun (p : Char) (n : Nat) : Str :=
  if ¬ isRepExempt p ∧ 5 ≤ n then [p] else List.replicate (n + 1) p

/-- Worker for `repSub`: the pending maximal run is `n + 1` copies of `p`. -/
def repSubGo (p : Char) (n : Nat) : Str → Str
  | [] => emitRun p n
  | c :: t =>
    if c = p then repSubGo p (n + 1) t
    else emitRun p n ++ repSubGo c 0 t

/-- Regex substitution `([^#\-=])\1{5,}` → `\1` (`clean_chunk_text` line
226): a maximal run of six or more equal non-exempt characters collapses to a
single occurrence. -/
def repSub : Str → Str
  | [] => []
  | c :: t => repSubGo c 0 t

/-- Embeds the per-line transform of `BatchProcessor.clean_chunk_text`
(`src/batchProcessor.py` lines 209-228). -/
def cleanLine (line : Str) : Str :=
  if isFenceLine line ∨ isTableLine line ∨ isHeadingLine line then line
  else
    let l1 := tabCrToSpace line
    let leading := countLeading ' ' l1
    let l2 := List.replicate leading ' ' ++ collapseSpaces (pyLStrip l1)
    let l3 := l2.filter (fun c => ¬ isCtl c)
    if isDashEqLine l3 then l3 else repSub l3

/-- Embeds `BatchProcessor.clean_chunk_text` (`src/batchProcessor.py` lines
201-230). -/
def clean_chunk_text (text : Str) : Str :=
  pyStrip (joinNL ((splitLines text).map cleanLine))

/-- Regex search `` ```|~~~|\|.*\| `` of `is_gibberish`: the text contains a
fence marker, or two `|` characters with no newline between them. -/
def hasFenceOrTable (t : Str) : Bool :=
  containsSub (str "```") t || containsSub (str "~~~") t ||
  (splitOnChar '\n' t).any (fun seg => 2 ≤ (seg.filter (· = '|')).length)

/-- ASCII alphanumeric characters (`[a-zA-Z0-9]`). -/
def isAsciiAlnum (c : Char) : Bool :=
  ('a' ≤ c ∧ c ≤ 'z') ∨ ('A' ≤ c ∧ c ≤ 'Z') ∨ ('0' ≤ c ∧ c ≤ '9')

/-- Worker for `hasAlnumRun6`: the current maximal run is `n + 1` copies of
`p`. -/
def alnumRunGo (p : Char) (n : Nat) : Str → Bool
  | [] => isAsciiAlnum p ∧ 5 ≤ n
  | c :: t =>
    if c = p then alnumRunGo p (n + 1) t
    else (isAsciiAlnum p ∧ 5 ≤ n) || alnumRunGo c 0 t

/-- Regex search `([a-zA-Z0-9])\1{5,}`: some ASCII alphanumeric character
repeated six or more times consecutively. -/
def hasAlnumRun6 : Str → Bool
  | [] => false
  | c :: t => alnumRunGo c 0 t

/-- The "basic" character allowlist of `is_gibberish`: ASCII alphanumerics,
whitespace, and the punctuation set (dot, comma, semicolon, colon, bang,
question mark, parentheses, quotes, braces, square brackets, angle brackets,
equals, plus, minus, slash, percent, dollar, hash, at, ampersand, star). -/
def isBasicChar (c : Char) : Bool :=
  isAsciiAlnum c ∨ isPySpace c ∨
  (str ".,;:!?()\"'\x7b\x7d[]<>=+-/%$#@&*").contains c

/-- Embeds the `is_gibberish` classifier inside
`BatchProcessor.apply_quality_filters` (`src/batchProcessor.py` lines
238-254). -/
def is_gibberish (text : Str) : Bool :=
  if hasFenceOrTable text then false
  else
    let stripped := text.filter (fun c =>
      ¬ (c = '#' ∨ c = '|' ∨ c = '-' ∨ c.toNat = 0x60))
    if hasAlnumRun6 stripped then true
    else if 0 < stripped.length ∧
        stripped.length < 10 * (stripped.filter (fun c => ¬ isBasicChar c)).length
      then true
    else false

/-- Positioned chunk dictionary `{"url": ..., "chunk": ..., "position": ...}`
built by `get_html_chunks` and consumed by the quality filter. -/
structure PositionedChunk where
  url : Str
  chunk : Str
  position : Nat
  deriving DecidableEq

/-- Embeds `BatchProcessor.apply_quality_filters` (`src/batchProcessor.py`
lines 233-262): each chunk's text is normalized; chunks that normalize to
empty text or classify as gibberish are dropped, the rest keep their other
fields and carry the normalized text. -/
def apply_quality_filters (chunks : List PositionedChunk) :
    List PositionedChunk :=
  chunks.filterMap (fun c =>
    let text := clean_chunk_text c.chunk
    if text ≠ [] ∧ ¬ is_gibberish text then
      some { c with chunk := text }
    else none)

/-- Python `s.split(sep)[-1]` for a non-empty separator: the segment after
the last occurrence of the separator (the whole string if absent). -/
def afterLast (c : Char) (cs : Str) (s : Str) : Str :=
  (splitOnSub c cs s).getLastD []

/-- URL construction of `get_html_chunks` (`src/chunking.py` lines 313-331),
a pure function of the document storage path. -/
def urlFor (path : Str) : Str :=
  let is_user_doc := containsSub (str "User Documentation") path ||
    containsSub (str "User%20Documentation") path
  let is_tech_doc := containsSub (str "Technical Documentation") path ||
    containsSub (str "Technical%20Documentation") path
  let is_ale_doc := containsSub (str "aledoc25r1") path ||
    containsSub (str "ale%20doc25r1") path
  if is_tech_doc then
    let rel :=
      if containsSub (str "/techdocs25r1") path then
        afterLast '/' (str "techdocs25r1") path
      else path.dropWhile (· = '/')
    str "https://docs.ifs.com/techdocs/25r1" ++ rel
  else if is_user_doc then
    let rel :=
      if containsSub (str "/en/") path then afterLast '/' (str "en/") path
      else path.dropWhile (· = '/')
    str "https://docs.ifs.com/ifsclouddocs/25r1/" ++ rel
  else if is_ale_doc then
    let rel := afterLast '/' (str "aledoc25r1") path
    str "https://docs.ifs.com/techdocs/ale/" ++ rel
  else path

/-- Embeds the chunk-list assembly of `get_html_chunks` (`src/chunking.py`
lines 307-334): each strategy chunk becomes a positioned chunk whose
`position` is its zero-based index in the strategy output. -/
def buildChunksList (chunks : List Chunk) (path : Str) :
    List PositionedChunk :=
  chunks.enum.map (fun p => ⟨urlFor path, p.2.text, p.1⟩)

/-- Embeds `get_html_chunks` (`src/chunking.py` lines 272-334) from the
markdown stage onward: the HTML decoding and HTML-to-markdown conversion
steps call external libraries (BeautifulSoup, markdownify) and are not part
of the chunking engine, so the document is supplied as markdown text plus its
storage path.  The strategy dispatch (lines 300-305) is embedded as given:
any strategy string other than the two heading strategies selects fixed-size
chunking. -/
def get_html_chunks (md : Str) (path : Str)
    (chunk_size chunk_overlap : Int) (strategy : Str) :
    List PositionedChunk :=
  let chunks :=
    if strategy = str "h1_heading_based" then
      h1_heading_based_chunking md chunk_size chunk_overlap 50
    else if strategy = str "h2_heading_based" then
      h2_heading_based_chunking md chunk_size chunk_overlap
    else
      fixed_size_chunking md chunk_size chunk_overlap
  buildChunksList chunks path

/-- Is `b` a UTF-8 continuation byte (`0x80-0xBF`)? -/
def isContByte (b : Nat) : Bool := 0x80 ≤ b ∧ b ≤ 0xBF

/-- Modelled from the spec: strict UTF-8 decoding as performed by Python
`bytes.decode("utf-8")` (an external codec).  Standard UTF-8 validation:
continuation bytes in range, overlong encodings, surrogates and code points
above `0x10FFFF` rejected. -/
def utf8Decode : List Nat → Option (List Char)
  | [] => some []
  | b :: t =>
    if b ≤ 0x7F then
      (utf8Decode t).map (Char.ofNat b :: ·)
    else if 0xC2 ≤ b ∧ b ≤ 0xDF then
      match t with
      | b2 :: t2 =>
        if isContByte b2 then
          (utf8Decode t2).map (Char.ofNat ((b - 0xC0) * 64 + (b2 - 0x80)) :: ·)
        else none
      | _ => none
    else if 0xE0 ≤ b ∧ b ≤ 0xEF then
      match t with
      | b2 :: b3 :: t3 =>
        let lo2 := if b = 0xE0 then 0xA0 else 0x80
        let hi2 := if b = 0xED then 0x9F else 0xBF
        if (lo2 ≤ b2 ∧ b2 ≤ hi2) ∧ isContByte b3 then
          (utf8Decode t3).map
            (Char.ofNat ((b - 0xE0) * 4096 + (b2 - 0x80) * 64 + (b3 - 0x80))
              :: ·)
        else none
      | _ => none
    else if 0xF0 ≤ b ∧ b ≤ 0xF4 then
      match t with
      | b2 :: b3 :: b4 :: t4 =>
        let lo2 := if b = 0xF0 then 0x90 else 0x80
        let hi2 := if b = 0xF4 then 0x8F else 0xBF
        if (lo2 ≤ b2 ∧ b2 ≤ hi2) ∧ isContByte b3 ∧ isContByte b4 then
          (utf8Decode t4).map
            (Char.ofNat ((b - 0xF0) * 262144 + (b2 - 0x80) * 4096 +
              (b3 - 0x80) * 64 + (b4 - 0x80)) :: ·)
        else none
      | _ => none
    else none

/-- The five byte values undefined in the windows-1252 codec. -/
def cp1252Undefined : List Nat := [0x81, 0x8D, 0x8F, 0x90, 0x9D]

/-- Modelled from the spec: the windows-1252 single-byte decoding table as
used by Python `bytes.decode("windows-1252")` (an external codec, strict
mode).  Bytes below `0x80` and from `0xA0` to `0xFF` map to the same code
point; the `0x80-0x9F` block maps through the Windows table; the five
undefined bytes (and anything not a byte) decode to `none`. -/
def cp1252Byte (b : Nat) : Option Nat :=
  if b ≤ 0x7F then some b
  else if 0xA0 ≤ b ∧ b ≤ 0xFF then some b
  else if b = 0x80 then some 0x20AC
  else if b = 0x82 then some 0x201A
  else if b = 0x83 then some 0x0192
  else if b = 0x84 then some 0x201E
  else if b = 0x85 then some 0x2026
  else if b = 0x86 then some 0x2020
  else if b = 0x87 then some 0x2021
  else if b = 0x88 then some 0x02C6
  else if b = 0x89 then some 0x2030
  else if b = 0x8A then some 0x0160
  else if b = 0x8B then some 0x2039
  else if b = 0x8C then some 0x0152
  else if b = 0x8E then some 0x017D
  else if b = 0x91 then some 0x2018
  else if b = 0x92 then some 0x2019
  else if b = 0x93 then some 0x201C
  else if b = 0x94 then some 0x201D
  else if b = 0x95 then some 0x2022
  else if b = 0x96 then some 0x2013
  else if b = 0x97 then some 0x2014
  else if b = 0x98 then some 0x02DC
  else if b = 0x99 then some 0x2122
  else if b = 0x9A then some 0x0161
  else if b = 0x9B then some 0x203A
  else if b = 0x9C then some 0x0153
  else if b = 0x9E then some 0x017E
  else if b = 0x9F then some 0x0178
  else none

/-- Strict windows-1252 decoding of a whole byte string: fails as soon as
one byte is undefined. -/
def cp1252Decode : List Nat → Option Str
  | [] => some []
  | b :: t =>
    match cp1252Byte b, cp1252Decode t with
    | some v, some vs => some (Char.ofNat v :: vs)
    | _, _ => none

/-- Embeds `get_html_content` (`src/chunking.py` lines 17-28) from the
decoded-bytes stage onward (the base64 transport wrapper is elided): try
strict UTF-8, and on failure fall back to strict windows-1252.  `none` means
the Python function raises `UnicodeDecodeError`. -/
def get_html_content (bs : List Nat) : Option Str :=
  match utf8Decode bs with
  | some s => some s
  | none => cp1252Decode bs

/-- Spec-side formulation of the h1 small-fragment merge scan, written from
the C2 claim sentence: scanning left to right, a sub-piece that is not the
last is merged into its successor (joined by a blank line) exactly when its
token count plus the successor's token count plus the continuation overhead
fits the budget and the successor's token count is below the merge
threshold; an emitted sub-piece at scan position 0 carries the bare heading
line, every later one the "(continued)" heading line, and every chunk
carries the section's heading label (via `h1Emit`). -/
def h1MergeScan (chunk_size threshold overhead : Int)
    (heading_line heading : Str) : Nat → List Str → List Chunk
  | _, [] => []
  | i, [x] => [h1Emit heading_line heading i (pyStrip x)]
  | i, x :: y :: rest =>
    let xs := pyStrip x
    if (count_tokens xs + count_tokens y : Int) + overhead ≤ chunk_size ∧
        (count_tokens y : Int) < threshold then
      h1MergeScan chunk_size threshold overhead heading_line heading (i + 1)
        ((xs ++ nl2 ++ pyStrip y) :: rest)
    else
      h1Emit heading_line heading i xs ::
        h1MergeScan chunk_size threshold overhead heading_line heading (i + 1)
          (y :: rest)
  termination_by _ l => l.length
  decreasing_by
    · simp only [List.length_cons]; omega
    · simp only [List.length_cons]; omega

/-- Continuation text of sub-piece `i`, written from the C5 claim sentence:
sub-piece 0 gets the bare heading line, later sub-pieces the "(continued)"
heading line; with no heading line, only the bare "(continued)" marker is
prepended to later sub-pieces. -/
def h2ContinuationText (heading_line : Str) (i : Nat) (piece : Str) : Str :=
  if i = 0 then
    if heading_line = [] then piece else heading_line ++ nl2 ++ piece
  else
    (if heading_line = [] then contBare else heading_line ++ contTail) ++ piece

/-- Spec-side formulation of the H2 strategy, written from the C5 claim
sentence: every heading line is rendered at level-2 syntax whichever level
supplied it; an overflowing section is sub-split with budget `chunk_size`
minus the heading-line token count minus the flat constant 50, and exactly
one chunk is emitted per sub-piece (no small-fragment merging), prefixed by
`h2ContinuationText`. -/
def h2_spec (md : Str) (chunk_size chunk_overlap : Int) : List Chunk :=
  (splitByH1H2 md).flatMap (fun sec =>
    let heading := h2HeadingOf sec.1
    let hl := h2HeadingLine heading
    let body := pyStrip sec.2
    let full := if hl = [] then body else hl ++ nl2 ++ body
    if (count_tokens full : Int) ≤ chunk_size then [⟨full, heading⟩]
    else
      (splitText (chunk_size - (count_tokens hl : Int) - 50) chunk_overlap
          body).mapIdx
        (fun i p => ⟨h2ContinuationText hl i (pyStrip p), heading⟩))

/-- The indivisible units of a text in the C1 sense: maximal segments that no
separator of the Recursive Text Splitter can split further (every separator
of `defaultSeps` splits at spaces or newlines, so units are the maximal
space-free newline-free segments). -/
def indivisibleUnits (t : Str) : List Str :=
  ((splitOnChar '\n' t).flatMap (splitOnChar ' ')).filter (· ≠ [])

/-- Does the text contain an indivisible unit that by itself exceeds the
budget? -/
def hasOversizeUnit (chunk_size : Int) (t : Str) : Bool :=
  (indivisibleUnits t).any (fun w => chunk_size < (count_tokens w : Int))

/-- Does some line of `md` parse as a level-`k` markdown heading? -/
def hasHeadingLineAt (k : Nat) (md : Str) : Bool :=
  (splitOnChar '\n' md).any (fun l => (headingAt k l).isSome)

/-- Continuation overheads of the sections the h1 strategy would iterate
over (empty when the strategy falls back to fixed-size chunking). -/
def h1OverheadsOf (md : Str) : List Nat :=
  match h1Docs md with
  | none => []
  | some docs => docs.map (fun d => h1Overhead (h1HeadingOf d.1).2)

/-- Heading-line token cost plus the flat constant 50, for each section of
the h2 strategy: the budget the sub-splitter is given is `chunk_size` minus
this value. -/
def h2BudgetNeeds (md : Str) : List Nat :=
  (splitByH1H2 md).map
    (fun d => count_tokens (h2HeadingLine (h2HeadingOf d.1)) + 50)

/-- Control characters that `clean_chunk_text` treats as structure rather
than as junk to delete: tabs (normalised to spaces) and the line-break
characters (consumed by `splitlines`). -/
def isAllowedCtl (c : Char) : Bool := c = '\t' ∨ isLineSep c

/-- A text whose control characters are all tabs or line breaks. -/
def ctlFree (t : Str) : Prop := ∀ c ∈ t, isCtl c → isAllowedCtl c

/-- A blank heading line: a markdown heading line whose content after the
`#` marker run is only whitespace (e.g. `"      ## "`).  The final `strip()`
of `clean_chunk_text` can demote such a line at the end of the text to a
non-heading line, which the next pass then normalises differently. -/
def blankHeadingLine (l : Str) : Bool :=
  isHeadingLine l &&
    ((l.dropWhile isPySpace).drop
      (countLeading '#' (l.dropWhile isPySpace))).all isPySpace

/-- A text none of whose lines is a blank heading line. -/
def noBlankHeading (t : Str) : Prop :=
  ∀ l ∈ splitLines t, blankHeadingLine l = false

/-- Apply `f` to the first element of a list (identity on `[]`). -/
def modHead (f : Str → Str) : List Str → List Str
  | [] => []
  | x :: t => f x :: t

/-- Apply `f` to the last element of a list (identity on `[]`). -/
def modLast (f : Str → Str) : List Str → List Str
  | [] => []
  | [x] => [f x]
  | x :: y :: t => x :: modLast f (y :: t)

/-- Is a line whitespace-only? -/
def wsLine (l : Str) : Bool := l.all isPySpace

/-- Drop leading whitespace-only lines. -/
def dropLeadWS (ls : List Str) : List Str := ls.dropWhile wsLine

/-- Drop trailing whitespace-only lines. -/
def dropTrailWS (ls : List Str) : List Str :=
  (ls.reverse.dropWhile wsLine).reverse

/-- The effect of the final `strip()` on a line list: blank edge lines
vanish, the first surviving line loses its leading whitespace, the last its
trailing whitespace. -/
def edgeTrim (ls : List Str) : List Str :=
  modLast pyRStrip (modHead pyLStrip (dropTrailWS (dropLeadWS ls)))

/-- No two consecutive spaces. -/
def noDbl (u : Str) : Prop :=
  List.Chain' (fun a b => ¬ (a = ' ' ∧ b = ' ')) u

/-! ### Theorems -/

/-- C4 (counterexample): the claim says the Quality Filter rejects (drops)
the chunk `"aaaaaa111111!!!@@@$$$"`; in fact the filter keeps it, because the
normalization pass collapses the repeated runs before the gibberish
classifier sees the text, and `!`, `@`, `$` all belong to the basic
allowlist. -/
theorem c4_counterexample :
    apply_quality_filters [⟨str "p", str "aaaaaa111111!!!@@@$$$", 0⟩] ≠ [] := by
  decide

/-- C4 (amended): given `"aaaaaa111111!!!@@@$$$"` the Quality Filter keeps
the chunk with its text normalized to `"a1!!!@@@$$$"` (the repeated runs are
collapsed by normalization before classification and the remaining symbols
are allowlisted), and keeps ``"```aaaaaa111111```"`` unchanged because chunks
containing code-fence markers are exempt from gibberish rejection;
classification runs on the normalized text and rejects when (a) an
alphanumeric character repeats six or more times consecutively after
markdown decoration is removed — as on the raw text `"aaaaaa111111"` — or
(b) more than 10% of remaining characters are outside the basic allowlist —
as on `"€€€ a"`. -/
theorem c4_quality_filter_scenario :
    apply_quality_filters
        [⟨str "p", str "aaaaaa111111!!!@@@$$$", 0⟩,
         ⟨str "p", str "```aaaaaa111111```", 1⟩] =
      [⟨str "p", str "a1!!!@@@$$$", 0⟩,
       ⟨str "p", str "```aaaaaa111111```", 1⟩] ∧
    is_gibberish (str "aaaaaa111111") = true ∧
    is_gibberish (str "€€€ a") = true := by
  decide

/-- C8 (counterexample): the claim says decoding returns a string for every
possible byte input; the single byte `0x81` is not valid UTF-8 and is
undefined in windows-1252, so `get_html_content` raises (returns `none`). -/
theorem c8_counterexample : get_html_content [0x81] = none := by decide

set_option maxRecDepth 8192 in
theorem cp1252Byte_total :
    ∀ b : Fin 256, (b : Nat) ∈ cp1252Undefined ∨ (cp1252Byte b).isSome := by
  decide

theorem cp1252Byte_isSome {b : Nat} (hb : b ≤ 0xFF)
    (hu : b ∉ cp1252Undefined) : (cp1252Byte b).isSome := by
  have h := cp1252Byte_total ⟨b, by omega⟩
  simp only [Fin.val_mk] at h
  exact h.resolve_left hu

theorem cp1252Decode_isSome {bs : List Nat}
    (h : ∀ b ∈ bs, b ≤ 0xFF ∧ b ∉ cp1252Undefined) :
    (cp1252Decode bs).isSome := by
  induction bs with
  | nil => simp [cp1252Decode]
  | cons b t ih =>
    have hb := h b (by simp)
    have hsome := cp1252Byte_isSome hb.1 hb.2
    have ht : (cp1252Decode t).isSome := ih (fun x hx => h x (by simp [hx]))
    rcases Option.isSome_iff_exists.mp hsome with ⟨v, hv⟩
    rcases Option.isSome_iff_exists.mp ht with ⟨vs, hvs⟩
    simp [cp1252Decode, hv, hvs]

/-- C8 (amended): decoding recovers for every byte input that is valid UTF-8
or contains none of the five byte values undefined in windows-1252
(`0x81`, `0x8D`, `0x8F`, `0x90`, `0x9D`): if UTF-8 decoding fails,
`get_html_content` falls back to the single-byte windows-1252 decoding and
returns a string. -/
theorem c8_decode_total (bs : List Nat)
    (h : (utf8Decode bs).isSome ∨ ∀ b ∈ bs, b ≤ 0xFF ∧ b ∉ cp1252Undefined) :
    (get_html_content bs).isSome := by
  unfold get_html_content
  cases hu : utf8Decode bs with
  | some s => simp
  | none =>
    rcases h with h | h
    · rw [hu] at h; simp at h
    · simpa using cp1252Decode_isSome h

/-- Witness for C8: the byte `0xFF` is not valid UTF-8 but decodes through
the windows-1252 fallback. -/
theorem c8_decode_total_witness : (get_html_content [0xFF]).isSome :=
  c8_decode_total [0xFF] (Or.inr (by decide))

theorem buildChunksList_positions (chunks : List Chunk) (path : Str) :
    (buildChunksList chunks path).map PositionedChunk.position =
      List.range chunks.length := by
  simp [buildChunksList, List.map_map, Function.comp]
  have h := List.enum_map_fst chunks
  convert h using 1

theorem apply_quality_filters_positions_sublist (l : List PositionedChunk) :
    ((apply_quality_filters l).map PositionedChunk.position).Sublist
      (l.map PositionedChunk.position) := by
  induction l with
  | nil => simp [apply_quality_filters]
  | cons c t ih =>
    simp only [apply_quality_filters] at ih ⊢
    rw [List.filterMap_cons]
    split
    · exact ih.cons _
    · rename_i b hb
      have hbpos : b.position = c.position := by
        split at hb
        · cases hb; rfl
        · cases hb
      simp only [List.map_cons, hbpos]
      exact ih.cons₂ _

/-- C9 (counterexample): the claim says post-filter positions are zero-based
and sequential; here the first fixed-size chunk is rejected as gibberish, and
the surviving chunks keep positions `[1, 2]`, so the chunk at index 0 has
position 1. -/
theorem c9_counterexample :
    (apply_quality_filters
          (get_html_chunks (str "€€€ a\n\nhello world") (str "p") 10 0
            (str "fixed_size"))).map PositionedChunk.position ≠
      List.range
        (apply_quality_filters
            (get_html_chunks (str "€€€ a\n\nhello world") (str "p") 10 0
              (str "fixed_size"))).length := by
  decide

/-- C9 (amended): position values are zero-based and sequential in the chunk
list `get_html_chunks` builds, i.e. before the Quality Filter runs; the
filter preserves each surviving chunk's original position (it renumbers
nothing), so the post-filter positions form a subsequence of `0..n-1` —
strictly increasing, but with gaps wherever a chunk was dropped. -/
theorem c9_positions (md path : Str) (s o : Int) (strat : Str) :
    (get_html_chunks md path s o strat).map PositionedChunk.position =
      List.range (get_html_chunks md path s o strat).length ∧
    ((apply_quality_filters (get_html_chunks md path s o strat)).map
        PositionedChunk.position).Sublist
      ((get_html_chunks md path s o strat).map PositionedChunk.position) := by
  constructor
  · have hlen : (get_html_chunks md path s o strat).length =
        (if strat = str "h1_heading_based" then
          h1_heading_based_chunking md s o 50
        else if strat = str "h2_heading_based" then
          h2_heading_based_chunking md s o
        else fixed_size_chunking md s o).length := by
      simp [get_html_chunks, buildChunksList]
    rw [hlen]
    exact buildChunksList_positions _ path
  · exact apply_quality_filters_positions_sublist _

theorem h1Emit_heading (hl hd : Str) (i : Nat) (s : Str) :
    (h1Emit hl hd i s).heading = some hd := by
  unfold h1Emit
  split <;> rfl

theorem h1LoopFuel_heading (cs th oh : Int) (hl hd : Str) :
    ∀ fuel i cur c, c ∈ h1LoopFuel cs th oh hl hd fuel i cur →
      c.heading = some hd := by
  intro fuel
  induction fuel with
  | zero => intro i cur c hc; simp [h1LoopFuel] at hc
  | succ n ih =>
    intro i cur c hc
    rw [h1LoopFuel] at hc
    dsimp only at hc
    split at hc
    · split at hc
      · split at hc
        · exact ih _ _ _ hc
        · rcases List.mem_cons.mp hc with h | h
          · rw [h]; exact h1Emit_heading _ _ _ _
          · exact ih _ _ _ h
      · rcases List.mem_cons.mp hc with h | h
        · rw [h]; exact h1Emit_heading _ _ _ _
        · exact ih _ _ _ h
    · simp at hc

theorem fixed_heading (md : Str) (s o : Int) :
    ∀ c ∈ fixed_size_chunking md s o, c.heading = some [] := by
  intro c hc
  simp only [fixed_size_chunking, List.mem_map] at hc
  rcases hc with ⟨t, _, rfl⟩
  rfl

/-- C10 (confirmed): for a section carrying no H1 and no H2 heading, the h2
strategy emits chunks whose heading field is `none` (Python `None`), whereas
fixed-size chunks always carry the empty string and h1-strategy chunks always
carry a string — the heading field is not uniformly a string across
strategies. -/
theorem c10_heading_field (md : Str) (s o th : Int) :
    (∀ c ∈ fixed_size_chunking md s o, c.heading = some []) ∧
    (∀ c ∈ h1_heading_based_chunking md s o th, c.heading ≠ none) ∧
    h2_heading_based_chunking (str "plain text, no headings") 750 100 =
      [⟨str "plain text, no headings", none⟩] := by
  refine ⟨fixed_heading md s o, ?_, by decide⟩
  intro c hc
  unfold h1_heading_based_chunking at hc
  split at hc
  · rw [fixed_heading md s o c hc]; simp
  · rcases List.mem_flatMap.mp hc with ⟨d, _, hcd⟩
    unfold h1SectionChunks at hcd
    dsimp only at hcd
    split at hcd <;> split at hcd <;>
      first
        | (rcases List.mem_singleton.mp hcd with rfl; simp)
        | (rw [h1LoopFuel_heading _ _ _ _ _ _ _ _ _
            (by simpa [h1LoopGo] using hcd)]; simp)

/-- Witness for C10: the fixed-size strategy on a tiny document indeed tags
its (sole) chunk with the empty-string heading. -/
theorem c10_heading_field_witness :
    (Chunk.mk (str "hi") (some [])).heading = some [] :=
  (c10_heading_field (str "hi") 5 0 50).1 ⟨str "hi", some []⟩ (by decide)

theorem hardCutGo_ne_nil (n : Nat) (acc : Str) (k : Nat) (t : Str) :
    hardCutGo n acc k t ≠ [] := by
  induction t generalizing acc k with
  | nil => simp [hardCutGo]
  | cons c t ih =>
    match k with
    | 0 => rw [hardCutGo]; simp
    | k' + 1 => rw [hardCutGo]; exact ih _ _

theorem hardCut_ne_nil (n : Nat) {t : Str} (ht : t ≠ []) :
    hardCut n t ≠ [] := by
  match t with
  | [] => exact absurd rfl ht
  | c :: t => exact hardCutGo_ne_nil n [c] n t

theorem splitPieces_ne_nil (budget : Int) (seps : List (Char × Str)) :
    ∀ t : Str, t ≠ [] → splitPieces budget seps t ≠ [] := by
  induction seps with
  | nil => exact fun t ht => hardCut_ne_nil _ ht
  | cons s rest ih =>
    intro t ht
    match s with
    | (c, cs) =>
      rw [splitPieces]
      split
      · exact ih t ht
      · rename_i hlen
        match hps : (splitOnSub c cs t).filter (· ≠ []) with
        | [] => rw [hps] at hlen; simp at hlen
        | p :: ps =>
          have hp : p ≠ [] := by
            have := List.mem_filter.mp (hps ▸ List.mem_cons_self p ps)
            simpa using this.2
          rw [hps]
          simp only [List.flatMap_cons, ne_eq, List.append_eq_nil, not_and]
          intro hhead
          split at hhead
          · simp at hhead
          · exact absurd hhead (ih p hp)

/-- C6 (confirmed): the Recursive Text Splitter is total by construction
(`splitText` is a terminating function for every budget, overlap and text),
returns the empty sequence for empty input, and returns at least one piece
for every non-empty input. -/
theorem c6_splitter_total (chunk_size chunk_overlap : Int) (t : Str)
    (hs : 1 ≤ chunk_size) (ho : 0 ≤ chunk_overlap) :
    (t = [] → splitText chunk_size chunk_overlap t = []) ∧
    (t ≠ [] → splitText chunk_size chunk_overlap t ≠ []) := by
  constructor
  · intro h; simp [splitText, h]
  · intro h
    unfold splitText
    rw [if_neg h]
    split
    · simp
    · exact splitPieces_ne_nil _ _ t h

/-- Witness for C6: a two-character text with budget 1 splits into a
non-empty piece list, and the empty text yields the empty list. -/
theorem c6_splitter_total_witness :
    splitText 1 0 (str "ab") ≠ [] ∧ splitText 1 0 [] = [] :=
  ⟨(c6_splitter_total 1 0 (str "ab") (by decide) (by decide)).2 (by decide),
   (c6_splitter_total 1 0 [] (by decide) (by decide)).1 rfl⟩

theorem drop_set_eq_cons {α : Type} (l : List α) (j : Nat) (v : α)
    (h : j < l.length) : (l.set j v).drop j = v :: l.drop (j + 1) := by
  induction l generalizing j with
  | nil => simp at h
  | cons a t ih =>
    match j with
    | 0 => simp
    | j' + 1 =>
      simp only [List.set_cons_succ, List.drop_succ_cons]
      exact ih j' (by simpa using h)

theorem h1LoopFuel_eq_scan (cs th oh : Int) (hl hd : Str) :
    ∀ fuel i cur, fuel = cur.length - i →
      h1LoopFuel cs th oh hl hd fuel i cur =
        h1MergeScan cs th oh hl hd i (cur.drop i) := by
  intro fuel
  induction fuel with
  | zero =>
    intro i cur hf
    have hle : cur.length ≤ i := by omega
    rw [List.drop_eq_nil_of_le hle]
    simp [h1LoopFuel, h1MergeScan]
  | succ n ih =>
    intro i cur hf
    have hi : i < cur.length := by omega
    rw [h1LoopFuel, dif_pos hi]
    by_cases him : i + 1 < cur.length
    · rw [dif_pos him]
      rw [List.drop_eq_getElem_cons hi, List.drop_eq_getElem_cons him]
      simp only [List.get_eq_getElem]
      simp only [h1MergeScan]
      split
      · rw [ih (i + 1) _ (by simp only [List.length_set]; omega)]
        rw [drop_set_eq_cons _ _ _ him]
      · rw [ih (i + 1) cur (by omega)]
        rw [List.drop_eq_getElem_cons him]
    · have hnext : cur.length ≤ i + 1 := by omega
      rw [dif_neg him]
      rw [List.drop_eq_getElem_cons hi, List.drop_eq_nil_of_le hnext]
      rw [ih (i + 1) cur (by omega), List.drop_eq_nil_of_le hnext]
      simp only [List.get_eq_getElem]
      simp [h1MergeScan]

/-- C2 (confirmed): the in-place merge loop of `h1_heading_based_chunking`
behaves exactly as the claim describes — formalised as the equality between
the literal embedded loop (`h1LoopGo`, index-based with slot overwriting)
and `h1MergeScan`, the left-to-right scan written from the claim's sentence:
a sub-piece that is not the last is merged into its successor (joined by a
blank line, source order preserved) exactly when its token count plus the
successor's token count plus the continuation overhead fits `chunk_size` and
the successor's token count is below the threshold; the sub-piece emitted at
position 0 carries the bare heading-line prefix, every later emitted
sub-piece the "(continued)" heading-line prefix, and every chunk carries the
section's heading label. -/
theorem c2_merge_scan (chunk_size threshold overhead : Int)
    (heading_line heading : Str) (subs : List Str) :
    h1LoopGo chunk_size threshold overhead heading_line heading 0 subs =
      h1MergeScan chunk_size threshold overhead heading_line heading 0 subs := by
  have h := h1LoopFuel_eq_scan chunk_size threshold overhead heading_line
    heading (subs.length - 0) 0 subs rfl
  simpa [h1LoopGo] using h

/-- C5 (confirmed): `h2_heading_based_chunking` coincides with `h2_spec`, the
formulation written from the claim's sentence: every heading line in an
emitted chunk uses level-2 syntax whether the label came from a level-1 or a
level-2 heading; in the overflow branch the sub-split budget is `chunk_size`
minus the heading-line token count minus the flat constant 50; sub-piece 0
gets the bare heading line and later sub-pieces the "(continued)" prefix;
and no small-fragment merging occurs — exactly one chunk per sub-piece. -/
theorem c5_h2_spec_equiv (md : Str) (chunk_size chunk_overlap : Int) :
    h2_heading_based_chunking md chunk_size chunk_overlap =
      h2_spec md chunk_size chunk_overlap := by
  unfold h2_heading_based_chunking h2_spec
  congr 1
  funext sec
  unfold h2SectionChunks h2ContinuationText
  dsimp only
  generalize h2HeadingOf sec.1 = H
  generalize pyStrip sec.2 = B
  by_cases hL : h2HeadingLine H = []
  · rw [hL]
    simp only [ne_eq, not_true_eq_false, if_false, ite_false, ite_true,
      List.mapIdx_eq_enum_map]
    split
    · rfl
    · apply List.map_congr_left
      intro p _
      by_cases hp : p.1 = 0 <;> simp [hp, Function.uncurry]
  · simp only [hL, ne_eq, not_false_eq_true, if_true, ite_true, ite_false,
      if_false, List.mapIdx_eq_enum_map]
    split
    · rfl
    · apply List.map_congr_left
      intro p _
      by_cases hp : p.1 = 0 <;>
        simp [hp, Function.uncurry, List.append_assoc]

theorem splitByLevelGo_no_headings (k : Nat) :
    ∀ (lines : List Str) (cur : Option Str) (acc : List Str),
      (∀ l ∈ lines, headingAt k l = none) →
      splitByLevelGo k cur acc lines =
        (if pyStrip (joinNL (acc.reverse ++ lines)) = [] then []
         else [(cur, joinNL (acc.reverse ++ lines))]) := by
  intro lines
  induction lines with
  | nil => intro cur acc _; simp [splitByLevelGo]
  | cons line rest ih =>
    intro cur acc h
    rw [splitByLevelGo]
    rw [h line (by simp)]
    rw [ih cur (line :: acc) (fun l hl => h l (by simp [hl]))]
    simp

theorem splitByLevel_no_headings (k : Nat) (md : Str)
    (h : hasHeadingLineAt k md = false) :
    meaningfulSplit (splitByLevel k md) = false := by
  have hall : ∀ l ∈ splitOnChar '\n' md, headingAt k l = none := by
    intro l hl
    have := List.any_eq_false.mp h l hl
    cases hopt : headingAt k l with
    | none => rfl
    | some v => rw [hopt] at this; simp at this
  unfold splitByLevel
  rw [splitByLevelGo_no_headings k _ none [] hall]
  split
  · rfl
  · rfl

/-- C3 (confirmed): for every markdown text containing no level-1 heading
line and no level-2 heading line, the heading splitter finds no meaningful
split at either level, and `h1_heading_based_chunking` returns exactly the
chunk list of `fixed_size_chunking` at the same parameters. -/
theorem c3_no_headings_fallback (md : Str) (chunk_size chunk_overlap th : Int)
    (hno1 : hasHeadingLineAt 1 md = false)
    (hno2 : hasHeadingLineAt 2 md = false) :
    h1_heading_based_chunking md chunk_size chunk_overlap th =
      fixed_size_chunking md chunk_size chunk_overlap := by
  have hdocs : h1Docs md = none := by
    unfold h1Docs
    dsimp only
    rw [splitByLevel_no_headings 1 md hno1]
    rw [splitByLevel_no_headings 2 md hno2]
    simp
  unfold h1_heading_based_chunking
  rw [hdocs]

/-- Witness for C3: a heading-free two-line document chunked with the h1
strategy equals its fixed-size chunking. -/
theorem c3_no_headings_fallback_witness :
    h1_heading_based_chunking (str "hello\nworld") 750 100 50 =
      fixed_size_chunking (str "hello\nworld") 750 100 :=
  c3_no_headings_fallback (str "hello\nworld") 750 100 50 (by decide)
    (by decide)

theorem dropWhile_length_le (p : Char → Bool) (l : Str) :
    (l.dropWhile p).length ≤ l.length := by
  induction l with
  | nil => simp
  | cons a t ih =>
    rw [List.dropWhile_cons]
    split
    · exact le_trans ih (by simp)
    · simp

theorem pyStrip_length_le (s : Str) : (pyStrip s).length ≤ s.length := by
  unfold pyStrip pyRStrip pyLStrip
  calc ((pyLStrip s).reverse.dropWhile isPySpace).reverse.length
      ≤ (s.dropWhile isPySpace).length := by
        rw [List.length_reverse]
        exact le_trans (dropWhile_length_le _ _) (by simp [pyLStrip])
    _ ≤ s.length := dropWhile_length_le _ _

theorem hardCutGo_piece_le (n : Nat) :
    ∀ (t : Str) (acc : Str) (k : Nat), acc.length + k ≤ n + 1 →
      ∀ p ∈ hardCutGo n acc k t, p.length ≤ n + 1 := by
  intro t
  induction t with
  | nil =>
    intro acc k hk p hp
    rw [hardCutGo] at hp
    rcases List.mem_singleton.mp hp with rfl
    simpa using by omega
  | cons c t ih =>
    intro acc k hk p hp
    match k with
    | 0 =>
      rw [hardCutGo] at hp
      rcases List.mem_cons.mp hp with rfl | hmem
      · simpa using by omega
      · exact ih [c] n (by simp; omega) p hmem
    | k' + 1 =>
      rw [hardCutGo] at hp
      exact ih (c :: acc) k' (by simp at hk ⊢; omega) p hp

theorem hardCut_piece_le (n : Nat) (t : Str) :
    ∀ p ∈ hardCut n t, p.length ≤ n + 1 := by
  match t with
  | [] => intro p hp; simp [hardCut] at hp
  | c :: t => exact hardCutGo_piece_le n t [c] n (by simp; omega)

theorem splitPieces_piece_le (budget : Int) :
    ∀ (seps : List (Char × Str)) (t : Str),
      ∀ p ∈ splitPieces budget seps t, (p.length : Int) ≤ max budget 1 := by
  intro seps
  induction seps with
  | nil =>
    intro t p hp
    have h := hardCut_piece_le _ t p hp
    have : ((budget - 1).toNat : Int) + 1 ≤ max budget 1 := by omega
    omega
  | cons s rest ih =>
    intro t p hp
    match s with
    | (c, cs) =>
      rw [splitPieces] at hp
      split at hp
      · exact ih t p hp
      · rcases List.mem_flatMap.mp hp with ⟨q, _, hq⟩
        split at hq
        · rcases List.mem_singleton.mp hq with rfl
          omega
        · exact ih q p hq

theorem splitText_piece_le (budget overlap : Int) (t : Str) :
    ∀ p ∈ splitText budget overlap t, (p.length : Int) ≤ max budget 1 := by
  intro p hp
  unfold splitText at hp
  split at hp
  · simp at hp
  · split at hp
    · rcases List.mem_singleton.mp hp with rfl
      rename_i h
      simp only [count_tokens] at h
      omega
    · exact splitPieces_piece_le budget defaultSeps t p hp

theorem h1Emit_text_le (hl hd : Str) (i : Nat) (xs : Str) :
    ((h1Emit hl hd i xs).text.length : Int) ≤ h1Overhead hl + xs.length := by
  have h14 : contTail.length = 14 := by decide
  have h13 : contBare.length = 13 := by decide
  have h2 : nl2.length = 2 := by decide
  unfold h1Emit h1Overhead
  by_cases hhl : hl = [] <;> by_cases hi : i = 0 <;>
    simp [hhl, hi, count_tokens, h14, h13, h2] <;> omega

theorem h1MergeScan_text_le (cs th : Int) (hl hd : Str) :
    ∀ (n : Nat) (i : Nat) (cur : List Str), cur.length = n →
      (∀ x ∈ cur,
        ((pyStrip x).length : Int) ≤ cs - (h1Overhead hl : Int) + 2) →
      ∀ c ∈ h1MergeScan cs th (h1Overhead hl) hl hd i cur,
        (c.text.length : Int) ≤ cs + 2 := by
  intro n
  induction n with
  | zero =>
    intro i cur hlen _ c hc
    rw [List.length_eq_zero.mp hlen] at hc
    simp [h1MergeScan] at hc
  | succ m ih =>
    intro i cur hlen hinv c hc
    match cur with
    | [x] =>
      simp only [h1MergeScan] at hc
      rcases List.mem_singleton.mp hc with rfl
      have := h1Emit_text_le hl hd i (pyStrip x)
      have hx := hinv x (by simp)
      omega
    | x :: y :: rest =>
      rw [h1MergeScan] at hc
      split at hc
      · rename_i hcond
        refine ih (i + 1) _ (by simpa using by simp at hlen; omega) ?_ c hc
        intro z hz
        rcases List.mem_cons.mp hz with rfl | hz2
        · have hstrip := pyStrip_length_le (pyStrip x ++ nl2 ++ pyStrip y)
          have hsy : (pyStrip y).length ≤ y.length := pyStrip_length_le y
          simp only [count_tokens] at hcond
          have hn2 : nl2.length = 2 := by decide
          simp only [List.length_append, hn2] at hstrip
          omega
        · exact hinv z (by simp [hz2])
      · rcases List.mem_cons.mp hc with rfl | hc2
        · have := h1Emit_text_le hl hd i (pyStrip x)
          have hx := hinv x (by simp)
          omega
        · refine ih (i + 1) (y :: rest) (by simp at hlen ⊢; omega) ?_ c hc2
          intro z hz
          exact hinv z (by simp [List.mem_cons.mp hz])

theorem fixed_size_chunking_bound (md : Str) (chunk_size chunk_overlap : Int)
    (hs : 1 ≤ chunk_size) :
    ∀ c ∈ fixed_size_chunking md chunk_size chunk_overlap,
      (count_tokens c.text : Int) ≤ chunk_size := by
  intro c hc
  simp only [fixed_size_chunking, List.mem_map] at hc
  rcases hc with ⟨t, ht, rfl⟩
  have hp := splitText_piece_le chunk_size chunk_overlap md t
    (List.mem_filter.mp ht).1
  have hst := pyStrip_length_le t
  simp only [count_tokens]
  omega

theorem h1SectionChunks_bound (chunk_size chunk_overlap th : Int)
    (meta : SecMeta) (content : Str)
    (hoh : (h1Overhead (h1HeadingOf meta).2 : Int) < chunk_size) :
    ∀ c ∈ h1SectionChunks chunk_size chunk_overlap th meta content,
      (count_tokens c.text : Int) ≤ chunk_size + 2 := by
  intro c hc
  unfold h1SectionChunks at hc
  dsimp only at hc
  split at hc <;> split at hc <;>
    first
      | (rcases List.mem_singleton.mp hc with rfl
         dsimp only
         omega)
      | (unfold h1LoopGo at hc
         rw [h1LoopFuel_eq_scan _ _ _ _ _ _ 0 _ rfl] at hc
         rw [List.drop_zero] at hc
         refine h1MergeScan_text_le chunk_size th (h1HeadingOf meta).2
           (h1HeadingOf meta).1 _ 0 _ rfl ?_ c hc
         intro x hx
         have hp := splitText_piece_le
           (chunk_size - (h1Overhead (h1HeadingOf meta).2 : Int))
           chunk_overlap (pyStrip content) x hx
         have hst := pyStrip_length_le x
         omega)

theorem h2SectionChunks_bound (chunk_size chunk_overlap : Int)
    (meta : SecMeta) (content : Str)
    (hneed : (count_tokens (h2HeadingLine (h2HeadingOf meta)) + 50 : Int) <
      chunk_size) :
    ∀ c ∈ h2SectionChunks chunk_size chunk_overlap meta content,
      (count_tokens c.text : Int) ≤ chunk_size := by
  intro c hc
  unfold h2SectionChunks at hc
  dsimp only at hc
  have h14 : contTail.length = 14 := by decide
  have h13 : contBare.length = 13 := by decide
  have hn2 : nl2.length = 2 := by decide
  split at hc <;> split at hc <;>
    first
      | (rcases List.mem_singleton.mp hc with rfl
         dsimp only
         omega)
      | (rcases List.mem_map.mp hc with ⟨p, hp, rfl⟩
         have hin : p.2 ∈ splitText
             (chunk_size -
               (count_tokens (h2HeadingLine (h2HeadingOf meta)) : Int) - 50)
             chunk_overlap (pyStrip content) :=
           List.get?_mem (List.mem_enum_iff_get?.mp hp)
         have hpiece := splitText_piece_le
           (chunk_size -
             (count_tokens (h2HeadingLine (h2HeadingOf meta)) : Int) - 50)
           chunk_overlap (pyStrip content) p.2 hin
         have hst := pyStrip_length_le p.2
         simp only [count_tokens] at hneed hpiece ⊢
         by_cases hi : p.1 = 0 <;>
           simp only [hi, ite_true, ite_false, if_true, if_false,
             List.length_append, h14, h13, hn2] <;>
           (try dsimp only) <;>
           (try simp only [List.length_append, h14, h13, hn2]) <;>
           omega)

/-- C1 (counterexample): the claim says every chunk respects the token
budget except chunks containing an over-budget indivisible unit.  With
`chunk_size = 2` the document `"# a\n\nb c"` makes the h2 sub-split budget
negative (`2 - 4 - 50`), and the emitted chunk `"## a\n\nb"` has 7 tokens
with no indivisible unit over 2 tokens. -/
theorem c1_counterexample :
    ¬ (∀ c ∈ h2_heading_based_chunking (str "# a\n\nb c") 2 0,
        (count_tokens c.text : Int) ≤ 2 ∨ hasOversizeUnit 2 c.text = true) := by
  decide

/-- C1 (amended): for every markdown input, `chunk_size ≥ 1` and overlap,
(i) every fixed-size chunk satisfies `token_count(text) ≤ chunk_size`;
(ii) provided `chunk_size` exceeds the continuation overhead of every
section the h1 strategy iterates over, every h1 chunk satisfies
`token_count(text) ≤ chunk_size + 2` (the slack of 2 is the blank-line join
that the small-fragment merge condition does not account for); and
(iii) provided `chunk_size` exceeds every section's heading-line token count
plus the flat constant 50, every h2 chunk satisfies
`token_count(text) ≤ chunk_size`.  In this model the splitter's
character-level hard cut always splits, so no indivisible-unit exception is
needed once the sub-split budgets are positive. -/
theorem c1_token_budget (md : Str) (chunk_size chunk_overlap th : Int)
    (hs : 1 ≤ chunk_size)
    (hh1 : ∀ oh ∈ h1OverheadsOf md, (oh : Int) < chunk_size)
    (hh2 : ∀ n ∈ h2BudgetNeeds md, (n : Int) < chunk_size) :
    (∀ c ∈ fixed_size_chunking md chunk_size chunk_overlap,
      (count_tokens c.text : Int) ≤ chunk_size) ∧
    (∀ c ∈ h1_heading_based_chunking md chunk_size chunk_overlap th,
      (count_tokens c.text : Int) ≤ chunk_size + 2) ∧
    (∀ c ∈ h2_heading_based_chunking md chunk_size chunk_overlap,
      (count_tokens c.text : Int) ≤ chunk_size) := by
  refine ⟨fixed_size_chunking_bound md chunk_size chunk_overlap hs, ?_, ?_⟩
  · intro c hc
    unfold h1_heading_based_chunking at hc
    unfold h1OverheadsOf at hh1
    cases hdocs : h1Docs md with
    | none =>
      rw [hdocs] at hc
      have := fixed_size_chunking_bound md chunk_size chunk_overlap hs c hc
      omega
    | some docs =>
      rw [hdocs] at hc
      rcases List.mem_flatMap.mp hc with ⟨d, hd, hcd⟩
      refine h1SectionChunks_bound chunk_size chunk_overlap th d.1 d.2 ?_ c hcd
      rw [hdocs] at hh1
      exact hh1 _ (List.mem_map.mpr ⟨d, hd, rfl⟩)
  · intro c hc
    unfold h2_heading_based_chunking at hc
    rcases List.mem_flatMap.mp hc with ⟨d, hd, hcd⟩
    refine h2SectionChunks_bound chunk_size chunk_overlap d.1 d.2 ?_ c hcd
    exact hh2 _ (List.mem_map.mpr ⟨d, hd, rfl⟩)

/-- Witness for C1: a small headed document with budget 100 satisfies all
three bounds. -/
theorem c1_token_budget_witness :
    (∀ c ∈ fixed_size_chunking (str "# T\n\nhello world") 100 0,
      (count_tokens c.text : Int) ≤ 100) ∧
    (∀ c ∈ h1_heading_based_chunking (str "# T\n\nhello world") 100 0 50,
      (count_tokens c.text : Int) ≤ 100 + 2) ∧
    (∀ c ∈ h2_heading_based_chunking (str "# T\n\nhello world") 100 0,
      (count_tokens c.text : Int) ≤ 100) :=
  c1_token_budget (str "# T\n\nhello world") 100 0 50 (by decide) (by decide)
    (by decide)

theorem dropWhile_head_not {α : Type} (p : α → Bool) :
    ∀ (l : List α) (c : α), (l.dropWhile p).head? = some c → p c = false := by
  intro l
  induction l with
  | nil => intro c h; simp at h
  | cons a t ih =>
    intro c h
    rw [List.dropWhile_cons] at h
    split at h
    · exact ih c h
    · rename_i hpa
      simp only [List.head?_cons, Option.some.injEq] at h
      rw [← h]
      simpa using hpa

theorem dropWhile_eq_self_of_head {α : Type} (p : α → Bool) (l : List α)
    (h : ∀ c, l.head? = some c → p c = false) : l.dropWhile p = l := by
  cases l with
  | nil => rfl
  | cons a t =>
    rw [List.dropWhile_cons, if_neg]
    simp [h a rfl]

theorem dropWhile_dropWhile {α : Type} (p : α → Bool) (l : List α) :
    (l.dropWhile p).dropWhile p = l.dropWhile p :=
  dropWhile_eq_self_of_head p _ (dropWhile_head_not p l)

theorem dropWhile_suffix {α : Type} (p : α → Bool) (l : List α) :
    l.dropWhile p <:+ l := by
  induction l with
  | nil => simp
  | cons a t ih =>
    rw [List.dropWhile_cons]
    split
    · exact ih.trans (List.suffix_cons a t)
    · exact List.suffix_refl _

theorem pyRStrip_pref (x : Str) : pyRStrip x <+: x := by
  unfold pyRStrip
  have h := dropWhile_suffix isPySpace x.reverse
  have h2 := List.reverse_prefix.mpr h
  simpa using h2

theorem pyLStrip_pyLStrip (x : Str) : pyLStrip (pyLStrip x) = pyLStrip x :=
  dropWhile_dropWhile isPySpace x

theorem pyRStrip_pyRStrip (x : Str) : pyRStrip (pyRStrip x) = pyRStrip x := by
  unfold pyRStrip
  rw [List.reverse_reverse, dropWhile_dropWhile]

theorem pyLStrip_pyRStrip_pyLStrip (s : Str) :
    pyLStrip (pyRStrip (pyLStrip s)) = pyRStrip (pyLStrip s) := by
  apply dropWhile_eq_self_of_head
  intro c hc
  rcases pyRStrip_pref (pyLStrip s) with ⟨t, ht⟩
  apply dropWhile_head_not isPySpace s c
  show (pyLStrip s).head? = some c
  rw [← ht]
  cases hr : pyRStrip (pyLStrip s) with
  | nil => rw [hr] at hc; simp at hc
  | cons b u =>
    rw [hr] at hc
    simp only [List.head?_cons, Option.some.injEq] at hc
    simp [hc]

theorem pyStrip_idem (s : Str) : pyStrip (pyStrip s) = pyStrip s := by
  unfold pyStrip
  rw [pyLStrip_pyRStrip_pyLStrip, pyRStrip_pyRStrip]

theorem splitLinesGo_single :
    ∀ (a : Str) (cur : Str), a ≠ [] → (∀ c ∈ a, isLineSep c = false) →
      splitLinesGo cur a = [cur.reverse ++ a] := by
  intro a
  induction a with
  | nil => intro cur h; exact absurd rfl h
  | cons c t ih =>
    intro cur _ hsep
    cases t with
    | nil =>
      rw [splitLinesGo]
      rw [if_neg (by simpa using hsep c (by simp))]
      simp
    | cons c2 t2 =>
      rw [splitLinesGo]
      rw [if_neg (by
        intro hcon
        have := hsep c (by simp)
        rw [hcon.1] at this
        simp [isLineSep] at this)]
      rw [if_neg (by simpa using hsep c (by simp))]
      rw [ih (c :: cur) (by simp) (fun d hd => hsep d (by simp [hd]))]
      simp

theorem splitLines_single (a : Str) (ha : a ≠ [])
    (hsep : ∀ c ∈ a, isLineSep c = false) : splitLines a = [a] := by
  unfold splitLines
  rw [splitLinesGo_single a [] ha hsep]
  simp

theorem splitLinesGo_append :
    ∀ (a : Str) (cur : Str) (r : Str), (∀ c ∈ a, isLineSep c = false) →
      splitLinesGo cur (a ++ '\n' :: r) =
        (cur.reverse ++ a) :: splitLines r := by
  intro a
  induction a with
  | nil =>
    intro cur r _
    cases r with
    | nil =>
      rw [List.nil_append, splitLinesGo]
      simp [isLineSep, splitLines, splitLinesGo]
    | cons c2 t2 =>
      rw [List.nil_append, splitLinesGo]
      rw [if_neg (by intro hcon; exact absurd hcon.1 (by decide))]
      rw [if_pos (by decide)]
      simp [splitLines]
  | cons c t ih =>
    intro cur r hsep
    have hc := hsep c (by simp)
    have hshape : ∃ c2 t2, t ++ '\n' :: r = c2 :: t2 := by
      cases t <;> simp
    rcases hshape with ⟨c2, t2, hsh⟩
    rw [List.cons_append, hsh, splitLinesGo]
    rw [if_neg (by
      intro hcon
      rw [hcon.1] at hc
      simp [isLineSep] at hc)]
    rw [if_neg (by simpa using hc)]
    rw [← hsh, ih (c :: cur) r (fun d hd => hsep d (by simp [hd]))]
    simp

theorem joinNL_cons₂ (a b : Str) (t : List Str) :
    joinNL (a :: b :: t) = a ++ '\n' :: joinNL (b :: t) := by
  unfold joinNL
  rw [List.intersperse_cons_cons]
  simp

theorem splitLines_joinNL :
    ∀ ls : List Str, (∀ l ∈ ls, ∀ c ∈ l, isLineSep c = false) →
      ls.getLast? ≠ some [] → splitLines (joinNL ls) = ls := by
  intro ls
  induction ls with
  | nil => intro _ _; simp [joinNL, splitLines, splitLinesGo]
  | cons a t ih =>
    intro hsep hlast
    cases t with
    | nil =>
      have ha : a ≠ [] := by
        intro h
        exact hlast (by simp [h])
      have hj : joinNL [a] = a := by simp [joinNL]
      rw [hj]
      exact splitLines_single a ha (hsep a (by simp))
    | cons b t2 =>
      rw [joinNL_cons₂]
      unfold splitLines
      rw [splitLinesGo_append a [] _ (hsep a (by simp))]
      rw [ih (fun l hl => hsep l (by simp [hl])) (by simpa using hlast)]
      simp

theorem wsLine_iff_pyLStrip (l : Str) : wsLine l = true ↔ pyLStrip l = [] := by
  unfold wsLine pyLStrip
  rw [List.dropWhile_eq_nil_iff, List.all_eq_true]

theorem wsLine_pyLStrip (l : Str) : wsLine (pyLStrip l) = wsLine l := by
  by_cases h : wsLine l = true
  · have h2 := (wsLine_iff_pyLStrip l).mp h
    rw [h2, h]
    rfl
  · have h2 : pyLStrip l ≠ [] := fun he =>
      h ((wsLine_iff_pyLStrip l).mpr he)
    have h3 : wsLine (pyLStrip l) ≠ true := fun hw => by
      have := (wsLine_iff_pyLStrip (pyLStrip l)).mp hw
      rw [pyLStrip_pyLStrip] at this
      exact h2 this
    simp only [Bool.not_eq_true] at h h3
    rw [h, h3]

theorem joinNL_singleton (a : Str) : joinNL [a] = a := by simp [joinNL]

theorem pyLStrip_joinNL_cons_ws (a : Str) (t : List Str) (hw : wsLine a = true) :
    pyLStrip (joinNL (a :: t)) = if t = [] then [] else pyLStrip (joinNL t) := by
  have ha : pyLStrip a = [] := (wsLine_iff_pyLStrip a).mp hw
  cases t with
  | nil => simp [joinNL_singleton, ha]
  | cons b t2 =>
    rw [joinNL_cons₂]
    unfold pyLStrip at ha ⊢
    rw [List.dropWhile_append, ha]
    simp [List.dropWhile_cons, isPySpace]

theorem pyLStrip_joinNL_cons_not_ws (a : Str) (t : List Str)
    (hw : wsLine a = false) :
    pyLStrip (joinNL (a :: t)) = joinNL (pyLStrip a :: t) := by
  have ha : pyLStrip a ≠ [] := fun he => by
    rw [(wsLine_iff_pyLStrip a).mpr he] at hw
    cases hw
  cases t with
  | nil => simp [joinNL_singleton]
  | cons b t2 =>
    rw [joinNL_cons₂, joinNL_cons₂]
    unfold pyLStrip at ha ⊢
    rw [List.dropWhile_append]
    rw [if_neg (by simpa using ha)]

theorem pyLStrip_joinNL (ls : List Str) :
    pyLStrip (joinNL ls) = joinNL (modHead pyLStrip (dropLeadWS ls)) := by
  induction ls with
  | nil => simp [joinNL, modHead, dropLeadWS, pyLStrip]
  | cons a t ih =>
    by_cases hw : wsLine a = true
    · cases t with
      | nil =>
        have ha := (wsLine_iff_pyLStrip a).mp hw
        simp [joinNL_singleton, ha, dropLeadWS, modHead, joinNL, hw]
      | cons b t2 =>
        rw [pyLStrip_joinNL_cons_ws a (b :: t2) hw]
        rw [if_neg (by simp)]
        rw [ih]
        unfold dropLeadWS
        rw [show List.dropWhile wsLine (a :: b :: t2) =
            List.dropWhile wsLine (b :: t2) from by
          rw [List.dropWhile_cons, if_pos (by simpa using hw)]]
    · rw [pyLStrip_joinNL_cons_not_ws a t (by simpa using hw)]
      unfold dropLeadWS
      rw [List.dropWhile_cons, if_neg (by simpa using hw)]
      rfl

theorem joinNL_append_singleton :
    ∀ (X : List Str) (y : Str), X ≠ [] →
      joinNL (X ++ [y]) = joinNL X ++ '\n' :: y := by
  intro X
  induction X with
  | nil => intro y h; exact absurd rfl h
  | cons a t ih =>
    intro y _
    cases t with
    | nil => rw [List.cons_append, List.nil_append, joinNL_cons₂,
        joinNL_singleton, joinNL_singleton]
    | cons b t2 =>
      have ihy := ih y (by simp)
      simp only [List.cons_append] at ihy ⊢
      rw [joinNL_cons₂, ihy, joinNL_cons₂]
      simp

theorem wsLine_reverse (l : Str) : wsLine l.reverse = wsLine l := by
  unfold wsLine
  simp

theorem modLast_append_singleton (f : Str → Str) :
    ∀ (X : List Str) (y : Str), modLast f (X ++ [y]) = X ++ [f y] := by
  intro X
  induction X with
  | nil => intro y; rfl
  | cons a X2 ih =>
    intro y
    cases X2 with
    | nil => rfl
    | cons b X3 =>
      have h := ih y
      simp only [List.cons_append] at h ⊢
      rw [show modLast f (a :: b :: (X3 ++ [y])) =
        a :: modLast f (b :: (X3 ++ [y])) from rfl]
      rw [h]

theorem pyRStrip_eq_reverse_pyLStrip (x : Str) :
    pyRStrip x = (pyLStrip x.reverse).reverse := rfl

theorem dropLeadWS_reverse_map (ls : List Str) :
    dropLeadWS ((ls.map List.reverse).reverse) =
      ((dropTrailWS ls).map List.reverse).reverse := by
  unfold dropLeadWS dropTrailWS
  rw [← List.map_reverse]
  rw [List.dropWhile_map]
  rw [show (wsLine ∘ List.reverse) = wsLine from funext wsLine_reverse]
  rw [List.map_reverse, List.reverse_reverse]

theorem joinNL_reverse :
    ∀ ls : List Str, (joinNL ls).reverse = joinNL ((ls.map List.reverse).reverse) := by
  intro ls
  induction ls with
  | nil => simp [joinNL]
  | cons a t ih =>
    cases t with
    | nil => simp [joinNL_singleton]
    | cons b t2 =>
      rw [joinNL_cons₂]
      rw [List.reverse_append]
      simp only [List.reverse_cons]
      rw [List.map_cons, List.reverse_cons]
      rw [joinNL_append_singleton _ _ (by simp)]
      rw [← ih]
      simp

theorem pyRStrip_joinNL (ls : List Str) :
    pyRStrip (joinNL ls) = joinNL (modLast pyRStrip (dropTrailWS ls)) := by
  rw [pyRStrip_eq_reverse_pyLStrip, joinNL_reverse, pyLStrip_joinNL,
    dropLeadWS_reverse_map]
  rcases List.eq_nil_or_concat (dropTrailWS ls) with hD | ⟨I, z, hD⟩
  · rw [hD]
    simp [joinNL, modHead, modLast]
  · rw [hD, List.concat_eq_append]
    rw [List.map_append, List.reverse_append]
    simp only [List.map_cons, List.map_nil, List.reverse_cons,
      List.reverse_nil, List.nil_append, List.cons_append]
    rw [show modHead pyLStrip (z.reverse :: (I.map List.reverse).reverse) =
      pyLStrip z.reverse :: (I.map List.reverse).reverse from rfl]
    rw [joinNL_reverse]
    rw [modLast_append_singleton]
    congr 1
    rw [List.map_cons, List.reverse_cons]
    rw [← List.map_reverse, List.reverse_reverse, List.map_map]
    rw [show (List.reverse ∘ List.reverse) = (id : Str → Str) from
      funext (fun l => List.reverse_reverse l)]
    rw [List.map_id]
    rw [← pyRStrip_eq_reverse_pyLStrip]

theorem dropTrailWS_cons (x : Str) (xs : List Str) :
    dropTrailWS (x :: xs) =
      if dropTrailWS xs = [] then (if wsLine x then [] else [x])
      else x :: dropTrailWS xs := by
  unfold dropTrailWS
  rw [List.reverse_cons, List.dropWhile_append]
  split
  · rename_i hemp
    rw [List.isEmpty_iff] at hemp
    rw [if_pos (by simpa using hemp)]
    by_cases hw : wsLine x
    · simp [List.dropWhile_cons, hw]
    · simp [List.dropWhile_cons, hw]
  · rename_i hemp
    rw [List.isEmpty_iff] at hemp
    rw [if_neg (by simpa using hemp)]
    simp

theorem dropTrailWS_modHead (f : Str → Str) (P : List Str)
    (hws : ∀ l, wsLine l = false → wsLine (f l) = false)
    (hP : P = [] ∨ ∀ m, P.head? = some m → wsLine m = false) :
    dropTrailWS (modHead f P) = modHead f (dropTrailWS P) := by
  rcases hP with rfl | hne
  · rfl
  · cases P with
    | nil => rfl
    | cons m rest =>
      have hm : wsLine m = false := hne m rfl
      rw [show modHead f (m :: rest) = f m :: rest from rfl]
      rw [dropTrailWS_cons, dropTrailWS_cons]
      split
      · rw [if_neg (by simp [hws m hm]), if_neg (by simp [hm])]
        rfl
      · rfl

theorem pyStrip_joinNL (L : List Str) :
    pyStrip (joinNL L) = joinNL (edgeTrim L) := by
  unfold pyStrip edgeTrim
  rw [pyLStrip_joinNL, pyRStrip_joinNL]
  congr 1
  congr 1
  apply dropTrailWS_modHead
  · intro l hl
    rw [wsLine_pyLStrip]
    exact hl
  · cases hD : dropLeadWS L with
    | nil => exact Or.inl rfl
    | cons m rest =>
      refine Or.inr (fun m2 hm2 => ?_)
      simp only [List.head?_cons, Option.some.injEq] at hm2
      have hD2 : List.dropWhile wsLine L = m :: rest := hD
      refine dropWhile_head_not wsLine L m2 ?_
      rw [hD2, hm2]
      rfl

theorem collapseSpacesGo_mem : ∀ (s : Str) (b : Bool) (c : Char),
    c ∈ collapseSpacesGo b s → c ∈ s := by
  intro s
  induction s with
  | nil => intro b c h; simp [collapseSpacesGo] at h
  | cons a t ih =>
    intro b c h
    by_cases ha : a = ' '
    · subst ha
      cases b with
      | true =>
        have h2 : c ∈ collapseSpacesGo true t := by
          simpa [collapseSpacesGo] using h
        exact List.mem_cons_of_mem _ (ih true c h2)
      | false =>
        rw [show collapseSpacesGo false (' ' :: t) =
            ' ' :: collapseSpacesGo true t from by simp [collapseSpacesGo]] at h
        rcases List.mem_cons.mp h with h1 | h2
        · simp [h1]
        · exact List.mem_cons_of_mem _ (ih true c h2)
    · rw [show collapseSpacesGo b (a :: t) = a :: collapseSpacesGo false t from by
        simp [collapseSpacesGo, ha]] at h
      rcases List.mem_cons.mp h with h1 | h2
      · simp [h1]
      · exact List.mem_cons_of_mem _ (ih false c h2)

theorem collapseSpacesGo_spec : ∀ s : Str,
    noDbl (collapseSpacesGo false s) ∧ noDbl (collapseSpacesGo true s) ∧
      (collapseSpacesGo true s).head? ≠ some ' ' := by
  intro s
  induction s with
  | nil =>
    refine ⟨?_, ?_, ?_⟩ <;> simp [collapseSpacesGo, noDbl]
  | cons a t ih =>
    obtain ⟨ihF, ihT, ihH⟩ := ih
    by_cases ha : a = ' '
    · subst ha
      have keyT : collapseSpacesGo true (' ' :: t) = collapseSpacesGo true t := by
        simp [collapseSpacesGo]
      have keyF : collapseSpacesGo false (' ' :: t) =
          ' ' :: collapseSpacesGo true t := by
        simp [collapseSpacesGo]
      refine ⟨?_, ?_, ?_⟩
      · rw [keyF]
        unfold noDbl at ihT ⊢
        rw [List.chain'_cons']
        refine ⟨fun y hy hcon => ihH ?_, ihT⟩
        rw [hcon.2] at hy
        exact hy
      · rw [keyT]; exact ihT
      · rw [keyT]; exact ihH
    · have key : ∀ b : Bool, collapseSpacesGo b (a :: t) =
          a :: collapseSpacesGo false t := by
        intro b; simp [collapseSpacesGo, ha]
      refine ⟨?_, ?_, ?_⟩
      · rw [key]
        unfold noDbl at ihF ⊢
        rw [List.chain'_cons']
        exact ⟨fun y _ hcon => ha hcon.1, ihF⟩
      · rw [key]
        unfold noDbl at ihF ⊢
        rw [List.chain'_cons']
        exact ⟨fun y _ hcon => ha hcon.1, ihF⟩
      · rw [key]
        simp [ha]

theorem collapseSpaces_noDbl (s : Str) : noDbl (collapseSpaces s) :=
  (collapseSpacesGo_spec s).1

theorem collapseSpacesGo_true_of_head (t : Str) (h : t.head? ≠ some ' ') :
    collapseSpacesGo true t = collapseSpacesGo false t := by
  cases t with
  | nil => rfl
  | cons a u =>
    have ha : a ≠ ' ' := fun hcon => h (by rw [hcon]; rfl)
    simp [collapseSpacesGo, ha]

theorem collapseSpacesGo_false_fixed :
    ∀ s : Str, noDbl s → collapseSpacesGo false s = s := by
  intro s
  induction s with
  | nil => intro _; rfl
  | cons a t ih =>
    intro h
    unfold noDbl at h
    rw [List.chain'_cons'] at h
    obtain ⟨hhd, htl⟩ := h
    by_cases ha : a = ' '
    · subst ha
      rw [show collapseSpacesGo false (' ' :: t) =
          ' ' :: collapseSpacesGo true t from by simp [collapseSpacesGo]]
      have hth : t.head? ≠ some ' ' := fun hcon => hhd ' ' hcon ⟨rfl, rfl⟩
      rw [collapseSpacesGo_true_of_head t hth, ih htl]
    · rw [show collapseSpacesGo false (a :: t) =
          a :: collapseSpacesGo false t from by simp [collapseSpacesGo, ha]]
      rw [ih htl]

theorem collapseSpaces_fixed (s : Str) (h : noDbl s) : collapseSpaces s = s :=
  collapseSpacesGo_false_fixed s h

theorem collapseSpaces_head (s : Str) :
    (collapseSpaces s).head? = s.head? := by
  cases s with
  | nil => rfl
  | cons a t =>
    by_cases ha : a = ' '
    · subst ha
      rw [show collapseSpaces (' ' :: t) =
          ' ' :: collapseSpacesGo true t from by simp [collapseSpaces, collapseSpacesGo]]
      rfl
    · rw [show collapseSpaces (a :: t) =
          a :: collapseSpacesGo false t from by simp [collapseSpaces, collapseSpacesGo, ha]]
      rfl

theorem tabCrGo_mem : ∀ (s : Str) (b : Bool) (c : Char),
    c ∈ tabCrGo b s → c ∈ s ∨ c = ' ' := by
  intro s
  induction s with
  | nil => intro b c h; simp [tabCrGo] at h
  | cons a t ih =>
    intro b c h
    by_cases ha : isTabCr a = true
    · cases b with
      | true =>
        have h2 : c ∈ tabCrGo true t := by simpa [tabCrGo, ha] using h
        rcases ih true c h2 with h3 | h3
        · exact Or.inl (List.mem_cons_of_mem _ h3)
        · exact Or.inr h3
      | false =>
        rw [show tabCrGo false (a :: t) = ' ' :: tabCrGo true t from by
          simp [tabCrGo, ha]] at h
        rcases List.mem_cons.mp h with h1 | h2
        · exact Or.inr h1
        · rcases ih true c h2 with h3 | h3
          · exact Or.inl (List.mem_cons_of_mem _ h3)
          · exact Or.inr h3
    · rw [show tabCrGo b (a :: t) = a :: tabCrGo false t from by
        simp [tabCrGo, ha]] at h
      rcases List.mem_cons.mp h with h1 | h2
      · exact Or.inl (by simp [h1])
      · rcases ih false c h2 with h3 | h3
        · exact Or.inl (List.mem_cons_of_mem _ h3)
        · exact Or.inr h3

theorem tabCrGo_no_tabcr : ∀ (s : Str) (b : Bool) (c : Char),
    c ∈ tabCrGo b s → isTabCr c = false := by
  intro s
  induction s with
  | nil => intro b c h; simp [tabCrGo] at h
  | cons a t ih =>
    intro b c h
    by_cases ha : isTabCr a = true
    · cases b with
      | true =>
        exact ih true c (by simpa [tabCrGo, ha] using h)
      | false =>
        rw [show tabCrGo false (a :: t) = ' ' :: tabCrGo true t from by
          simp [tabCrGo, ha]] at h
        rcases List.mem_cons.mp h with h1 | h2
        · rw [h1]; decide
        · exact ih true c h2
    · rw [show tabCrGo b (a :: t) = a :: tabCrGo false t from by
        simp [tabCrGo, ha]] at h
      rcases List.mem_cons.mp h with h1 | h2
      · rw [h1]; simpa using ha
      · exact ih false c h2

theorem tabCrGo_noop : ∀ (s : Str) (b : Bool),
    (∀ c ∈ s, isTabCr c = false) → tabCrGo b s = s := by
  intro s
  induction s with
  | nil => intro b _; rfl
  | cons a t ih =>
    intro b h
    have ha : isTabCr a = false := h a (by simp)
    rw [show tabCrGo b (a :: t) = a :: tabCrGo false t from by
      simp [tabCrGo, ha]]
    rw [ih false (fun c hc => h c (by simp [hc]))]

theorem tabCrToSpace_noop (s : Str) (h : ∀ c ∈ s, isTabCr c = false) :
    tabCrToSpace s = s :=
  tabCrGo_noop s false h

theorem head?_append_of_ne_nil {α : Type} (l l2 : List α) (h : l ≠ []) :
    (l ++ l2).head? = l.head? := by
  cases l with
  | nil => exact absurd rfl h
  | cons a t => rfl

theorem emitRun_ne_nil (p : Char) (n : Nat) : emitRun p n ≠ [] := by
  unfold emitRun
  split
  · simp
  · simp

theorem emitRun_head (p : Char) (n : Nat) : (emitRun p n).head? = some p := by
  unfold emitRun
  split
  · rfl
  · rw [List.replicate_succ]
    rfl

theorem emitRun_mem (p : Char) (n : Nat) (c : Char) (h : c ∈ emitRun p n) :
    c = p := by
  unfold emitRun at h
  split at h
  · simpa using h
  · exact List.eq_of_mem_replicate h

theorem emitRun_eq_replicate (p : Char) (n : Nat) :
    emitRun p n = List.replicate (emitRun p n).length p := by
  by_cases h : ¬ isRepExempt p ∧ 5 ≤ n
  · rw [show emitRun p n = [p] from by unfold emitRun; rw [if_pos h]]
    rfl
  · rw [show emitRun p n = List.replicate (n + 1) p from by
      unfold emitRun; rw [if_neg h]]
    rw [List.length_replicate]

theorem emitRun_length_pos (p : Char) (n : Nat) : 1 ≤ (emitRun p n).length := by
  unfold emitRun
  split
  · simp
  · simp

theorem emitRun_length_le (p : Char) (n : Nat) :
    (emitRun p n).length ≤ n + 1 := by
  unfold emitRun
  split
  · simp
  · simp

theorem emitRun_emitRun (p : Char) (n : Nat) :
    emitRun p ((emitRun p n).length - 1) = emitRun p n := by
  by_cases h : ¬ isRepExempt p ∧ 5 ≤ n
  · rw [show emitRun p n = [p] from by unfold emitRun; rw [if_pos h]]
    show emitRun p 0 = [p]
    unfold emitRun
    rw [if_neg (fun hc => absurd hc.2 (by omega))]
    rfl
  · rw [show emitRun p n = List.replicate (n + 1) p from by
      unfold emitRun; rw [if_neg h]]
    rw [List.length_replicate, Nat.add_sub_cancel]
    unfold emitRun
    rw [if_neg h]

theorem repSubGo_eq : ∀ (t : Str) (p : Char) (n : Nat),
    repSubGo p n t =
      emitRun p (n + (t.takeWhile (· = p)).length) ++
        repSub (t.dropWhile (· = p)) := by
  intro t
  induction t with
  | nil =>
    intro p n
    rw [show repSubGo p n [] = emitRun p n from rfl]
    rw [List.takeWhile_nil, List.dropWhile_nil]
    rw [show repSub [] = [] from rfl, List.append_nil]
    rfl
  | cons c u ih =>
    intro p n
    by_cases hc : c = p
    · subst hc
      rw [show repSubGo c n (c :: u) = repSubGo c (n + 1) u from by
        simp [repSubGo]]
      rw [ih c (n + 1)]
      rw [List.takeWhile_cons_of_pos (by simp), List.dropWhile_cons_of_pos (by simp)]
      rw [List.length_cons]
      congr 2
      omega
    · rw [show repSubGo p n (c :: u) = emitRun p n ++ repSubGo c 0 u from by
        simp [repSubGo, hc]]
      rw [List.takeWhile_cons_of_neg (by simp [hc]),
        List.dropWhile_cons_of_neg (by simp [hc])]
      rw [List.length_nil, Nat.add_zero]
      rw [show repSub (c :: u) = repSubGo c 0 u from rfl]

theorem repSub_head : ∀ u : Str, (repSub u).head? = u.head? := by
  intro u
  cases u with
  | nil => rfl
  | cons c t =>
    rw [show repSub (c :: t) = repSubGo c 0 t from rfl, repSubGo_eq]
    rw [head?_append_of_ne_nil _ _ (emitRun_ne_nil c _)]
    rw [emitRun_head]
    rfl

theorem dropWhile_head_ne (p : Char) (t : Str) :
    (t.dropWhile (· = p)).head? ≠ some p := by
  intro hcon
  have h2 := dropWhile_head_not (· = p) t p hcon
  simp at h2

theorem repSub_mem_aux : ∀ (N : Nat) (u : Str), u.length ≤ N →
    ∀ c, c ∈ repSub u → c ∈ u := by
  intro N
  induction N with
  | zero =>
    intro u hu c hc
    have h0 : u = [] := List.length_eq_zero.mp (Nat.le_zero.mp hu)
    subst h0
    simpa [repSub] using hc
  | succ N ih =>
    intro u hu c hc
    cases u with
    | nil => simpa [repSub] using hc
    | cons a t =>
      rw [show repSub (a :: t) = repSubGo a 0 t from rfl, repSubGo_eq] at hc
      rcases List.mem_append.mp hc with h1 | h2
      · have h3 := emitRun_mem a _ c h1
        simp [h3]
      · have hlen : (t.dropWhile (· = a)).length ≤ N := by
          have h4 := dropWhile_length_le (· = a) t
          have h5 : t.length ≤ N := by simpa using Nat.le_of_succ_le_succ hu
          omega
        have h6 := ih (t.dropWhile (· = a)) hlen c h2
        exact List.mem_cons_of_mem a ((dropWhile_suffix (· = a) t).subset h6)

theorem repSub_mem (u : Str) (c : Char) (h : c ∈ repSub u) : c ∈ u :=
  repSub_mem_aux u.length u (Nat.le_refl _) c h

theorem takeWhile_replicate_append (c : Char) : ∀ (k : Nat) (w : Str),
    w.head? ≠ some c →
      (List.replicate k c ++ w).takeWhile (· = c) = List.replicate k c ∧
      (List.replicate k c ++ w).dropWhile (· = c) = w := by
  intro k
  induction k with
  | zero =>
    intro w hw
    simp only [List.replicate_zero, List.nil_append]
    cases w with
    | nil => constructor <;> rfl
    | cons a t =>
      have ha : a ≠ c := fun hcon => hw (by rw [hcon]; rfl)
      constructor
      · rw [List.takeWhile_cons_of_neg (by simp [ha])]
      · rw [List.dropWhile_cons_of_neg (by simp [ha])]
  | succ n ihk =>
    intro w hw
    rw [List.replicate_succ, List.cons_append]
    rw [List.takeWhile_cons_of_pos (by simp), List.dropWhile_cons_of_pos (by simp)]
    obtain ⟨h1, h2⟩ := ihk w hw
    exact ⟨by rw [h1], by rw [h2]⟩

theorem repSub_replicate_append (c : Char) (k : Nat) (hk : 1 ≤ k) (w : Str)
    (hw : w.head? ≠ some c) :
    repSub (List.replicate k c ++ w) = emitRun c (k - 1) ++ repSub w := by
  obtain ⟨n, rfl⟩ : ∃ n, k = n + 1 := ⟨k - 1, by omega⟩
  rw [List.replicate_succ, List.cons_append]
  rw [show repSub (c :: (List.replicate n c ++ w)) =
      repSubGo c 0 (List.replicate n c ++ w) from rfl]
  rw [repSubGo_eq]
  obtain ⟨h1, h2⟩ := takeWhile_replicate_append c n w hw
  rw [h1, h2, List.length_replicate]
  congr 2
  omega

theorem repSub_replicate (c : Char) (k : Nat) (hk : 1 ≤ k) :
    repSub (List.replicate k c) = emitRun c (k - 1) := by
  have h := repSub_replicate_append c k hk [] (by simp)
  rw [List.append_nil] at h
  rw [show repSub ([] : Str) = [] from rfl, List.append_nil] at h
  exact h

theorem repSub_idem_aux : ∀ (N : Nat) (u : Str), u.length ≤ N →
    repSub (repSub u) = repSub u := by
  intro N
  induction N with
  | zero =>
    intro u hu
    have h0 : u = [] := List.length_eq_zero.mp (Nat.le_zero.mp hu)
    subst h0
    rfl
  | succ N ih =>
    intro u hu
    cases u with
    | nil => rfl
    | cons a t =>
      rw [show repSub (a :: t) = repSubGo a 0 t from rfl, repSubGo_eq]
      rw [Nat.zero_add]
      have hrh : (t.dropWhile (· = a)).head? ≠ some a := dropWhile_head_ne a t
      have hw : (repSub (t.dropWhile (· = a))).head? ≠ some a := by
        rw [repSub_head]
        exact hrh
      rw [emitRun_eq_replicate a (t.takeWhile (· = a)).length]
      rw [repSub_replicate_append a _ (emitRun_length_pos a _) _ hw]
      have hlen : (t.dropWhile (· = a)).length ≤ N := by
        have h4 := dropWhile_length_le (· = a) t
        have h5 : t.length ≤ N := by simpa using Nat.le_of_succ_le_succ hu
        omega
      rw [ih _ hlen]
      congr 1
      rw [emitRun_emitRun]
      exact emitRun_eq_replicate a _

theorem repSub_idem (u : Str) : repSub (repSub u) = repSub u :=
  repSub_idem_aux u.length u (Nat.le_refl _)

theorem chain'_replicate_not_space (m : Nat) (c : Char) (hc : c ≠ ' ') :
    List.Chain' (fun a b => ¬ (a = ' ' ∧ b = ' ')) (List.replicate m c) := by
  induction m with
  | zero => simp
  | succ n ihn =>
    rw [List.replicate_succ, List.chain'_cons']
    exact ⟨fun y _ hcon => hc hcon.1, ihn⟩

theorem repSub_noDbl_aux : ∀ (N : Nat) (u : Str), u.length ≤ N →
    noDbl u → noDbl (repSub u) := by
  intro N
  induction N with
  | zero =>
    intro u hu hnd
    have h0 : u = [] := List.length_eq_zero.mp (Nat.le_zero.mp hu)
    subst h0
    exact hnd
  | succ N ih =>
    intro u hu hnd
    cases u with
    | nil => exact hnd
    | cons a t =>
      rw [show repSub (a :: t) = repSubGo a 0 t from rfl, repSubGo_eq]
      rw [Nat.zero_add]
      have hrest_nd : noDbl (t.dropWhile (· = a)) := by
        unfold noDbl at hnd ⊢
        exact List.Chain'.suffix hnd
          ((dropWhile_suffix (· = a) t).trans (List.suffix_cons a t))
      have hlen : (t.dropWhile (· = a)).length ≤ N := by
        have h4 := dropWhile_length_le (· = a) t
        have h5 : t.length ≤ N := by simpa using Nat.le_of_succ_le_succ hu
        omega
      have hw : noDbl (repSub (t.dropWhile (· = a))) := ih _ hlen hrest_nd
      have hrh : (t.dropWhile (· = a)).head? ≠ some a := dropWhile_head_ne a t
      unfold noDbl at hw ⊢
      rw [List.chain'_append]
      refine ⟨?_, hw, ?_⟩
      · by_cases ha : a = ' '
        · subst ha
          have hth : t.head? ≠ some ' ' := by
            unfold noDbl at hnd
            rw [List.chain'_cons'] at hnd
            intro hcon
            exact hnd.1 ' ' hcon ⟨rfl, rfl⟩
          have htw : t.takeWhile (· = ' ') = [] := by
            cases t with
            | nil => rfl
            | cons b v =>
              have hb : b ≠ ' ' := fun hcon => hth (by rw [hcon]; rfl)
              rw [List.takeWhile_cons_of_neg (by simp [hb])]
          rw [htw]
          rw [show emitRun ' ' ([] : Str).length = [' '] from by
            unfold emitRun; rw [if_neg (fun hc => absurd hc.2 (by simp))]; rfl]
          exact List.chain'_singleton ' '
        · rw [emitRun_eq_replicate a _]
          exact chain'_replicate_not_space _ a ha
      · intro x hx y hy
        have hxa : x = a :=
          emitRun_mem a _ x (List.mem_of_getLast?_eq_some hx)
        have hyh : (t.dropWhile (· = a)).head? = some y := by
          rw [← repSub_head]
          exact hy
        intro hcon
        rw [hcon.2] at hyh
        rw [hxa] at hcon
        rw [hcon.1] at hrh
        rw [hcon.1] at hyh
        exact hrh hyh

theorem repSub_noDbl (u : Str) (h : noDbl u) : noDbl (repSub u) :=
  repSub_noDbl_aux u.length u (Nat.le_refl _) h

theorem repSubGo_length_le : ∀ (t : Str) (p : Char) (n : Nat),
    (repSubGo p n t).length ≤ n + 1 + t.length := by
  intro t
  induction t with
  | nil =>
    intro p n
    rw [show repSubGo p n [] = emitRun p n from rfl]
    have h1 := emitRun_length_le p n
    simp only [List.length_nil]
    omega
  | cons c u ih =>
    intro p n
    by_cases hc : c = p
    · subst hc
      rw [show repSubGo c n (c :: u) = repSubGo c (n + 1) u from by simp [repSubGo]]
      have h1 := ih c (n + 1)
      simp only [List.length_cons]
      omega
    · rw [show repSubGo p n (c :: u) = emitRun p n ++ repSubGo c 0 u from by
        simp [repSubGo, hc]]
      rw [List.length_append]
      have h1 := emitRun_length_le p n
      have h2 := ih c 0
      simp only [List.length_cons]
      omega

theorem repSub_length_le : ∀ u : Str, (repSub u).length ≤ u.length := by
  intro u
  cases u with
  | nil => simp [repSub]
  | cons a t =>
    rw [show repSub (a :: t) = repSubGo a 0 t from rfl]
    have h1 := repSubGo_length_le t a 0
    simp only [List.length_cons]
    omega

theorem prefix_append_cases {α : Type} : ∀ (A : List α) (v B : List α),
    v <+: A ++ B → v <+: A ∨ ∃ w, v = A ++ w ∧ w <+: B := by
  intro A
  induction A with
  | nil =>
    intro v B h
    exact Or.inr ⟨v, rfl, by simpa using h⟩
  | cons a A2 ihA =>
    intro v B h
    cases v with
    | nil => exact Or.inl (List.nil_prefix)
    | cons x v2 =>
      rw [List.cons_append, List.cons_prefix_cons] at h
      obtain ⟨rfl, h2⟩ := h
      rcases ihA v2 B h2 with h3 | ⟨w, rfl, h4⟩
      · exact Or.inl (List.cons_prefix_cons.mpr ⟨rfl, h3⟩)
      · exact Or.inr ⟨w, by simp, h4⟩

theorem prefix_replicate {α : Type} (c : α) : ∀ (k : Nat) (v : List α),
    v <+: List.replicate k c → v = List.replicate v.length c ∧ v.length ≤ k := by
  intro k
  induction k with
  | zero =>
    intro v h
    have h0 : v = [] := by simpa using h
    subst h0
    simp
  | succ n ihk =>
    intro v h
    cases v with
    | nil => simp
    | cons x v2 =>
      rw [List.replicate_succ, List.cons_prefix_cons] at h
      obtain ⟨rfl, h2⟩ := h
      obtain ⟨h3, h4⟩ := ihk v2 h2
      constructor
      · rw [List.length_cons, List.replicate_succ, ← h3]
      · simp only [List.length_cons]
        omega

theorem repSub_fixed_pref_aux : ∀ (N : Nat) (u : Str), u.length ≤ N →
    repSub u = u → ∀ v, v <+: u → repSub v = v := by
  intro N
  induction N with
  | zero =>
    intro u hu hfix v hv
    have h0 : u = [] := List.length_eq_zero.mp (Nat.le_zero.mp hu)
    subst h0
    have h1 : v = [] := List.prefix_nil.mp hv
    subst h1
    rfl
  | succ N ih =>
    intro u hu hfix v hv
    cases u with
    | nil =>
      have h1 : v = [] := List.prefix_nil.mp hv
      subst h1
      rfl
    | cons a t =>
      have htw : t.takeWhile (· = a) =
          List.replicate (t.takeWhile (· = a)).length a :=
        List.eq_replicate_of_mem (fun b hb => by
          simpa using List.mem_takeWhile_imp hb)
      obtain ⟨r, hr⟩ : ∃ r, (t.takeWhile (· = a)).length = r := ⟨_, rfl⟩
      obtain ⟨dw, hdw⟩ : ∃ dw, t.dropWhile (· = a) = dw := ⟨_, rfl⟩
      rw [hr] at htw
      have hu_decomp : a :: t = List.replicate (r + 1) a ++ dw := by
        rw [List.replicate_succ, List.cons_append, ← htw, ← hdw,
          List.takeWhile_append_dropWhile]
      have hfix2 : emitRun a r ++ repSub dw = List.replicate (r + 1) a ++ dw := by
        rw [show repSub (a :: t) = repSubGo a 0 t from rfl, repSubGo_eq,
          Nat.zero_add, hr, hdw] at hfix
        exact hfix.trans hu_decomp
      have hlen := congrArg List.length hfix2
      rw [List.length_append, List.length_append, List.length_replicate] at hlen
      have hle1 := emitRun_length_le a r
      have hle2 := repSub_length_le dw
      have hE : (emitRun a r).length = r + 1 := by omega
      have hDW : repSub dw = dw :=
        (List.append_inj hfix2 (by rw [hE, List.length_replicate])).2
      have hER : emitRun a r = List.replicate (r + 1) a := by
        have h3 := emitRun_eq_replicate a r
        rw [hE] at h3
        exact h3
      have hsmall : isRepExempt a = true ∨ r ≤ 4 := by
        by_cases hex : isRepExempt a = true
        · exact Or.inl hex
        · right
          by_contra hbig
          have h6 : emitRun a r = [a] := by
            unfold emitRun
            rw [if_pos ⟨hex, by omega⟩]
          rw [h6] at hE
          simp at hE
          omega
      have hEsmall : ∀ s : Nat, 1 ≤ s → s ≤ r + 1 →
          emitRun a (s - 1) = List.replicate s a := by
        intro s hs1 hs2
        have hcond : ¬ (¬ isRepExempt a ∧ 5 ≤ s - 1) := by
          rintro ⟨hne, h5⟩
          rcases hsmall with hex | hr4
          · exact hne hex
          · omega
        unfold emitRun
        rw [if_neg hcond]
        congr 1
        omega
      have hdwN : dw.length ≤ N := by
        have h4 := dropWhile_length_le (· = a) t
        rw [hdw] at h4
        have h5 : t.length ≤ N := by simpa using Nat.le_of_succ_le_succ hu
        omega
      have hv2 : v <+: List.replicate (r + 1) a ++ dw := by
        rw [← hu_decomp]
        exact hv
      rcases prefix_append_cases _ v _ hv2 with hcase | ⟨w, rfl, hwpre⟩
      · obtain ⟨hv_eq, hv_le⟩ := prefix_replicate a _ v hcase
        by_cases hz : v.length = 0
        · have hvnil : v = [] := List.length_eq_zero.mp hz
          rw [hvnil]
          rfl
        · have h1 : repSub v = emitRun a (v.length - 1) := by
            conv_lhs => rw [hv_eq]
            rw [repSub_replicate a v.length (by omega)]
          rw [h1, hEsmall v.length (by omega) hv_le, ← hv_eq]
      · by_cases hwnil : w = []
        · subst hwnil
          rw [List.append_nil]
          rw [repSub_replicate a (r + 1) (by omega), Nat.add_sub_cancel, hER]
        · have hda : dw.head? ≠ some a := by
            have h7 := dropWhile_head_ne a t
            rw [hdw] at h7
            exact h7
          obtain ⟨tl, htl⟩ := hwpre
          have hwh : w.head? ≠ some a := by
            rw [← htl, head?_append_of_ne_nil w tl hwnil] at hda
            exact hda
          rw [repSub_replicate_append a (r + 1) (by omega) w hwh,
            Nat.add_sub_cancel, hER]
          congr 1
          exact ih dw hdwN hDW w ⟨tl, htl⟩

theorem repSub_fixed_pref (u : Str) (hfix : repSub u = u) (v : Str)
    (hv : v <+: u) : repSub v = v :=
  repSub_fixed_pref_aux u.length u (Nat.le_refl _) hfix v hv

theorem dropWhile_append_cons {α : Type} (p : α → Bool) :
    ∀ (x : List α) (c : α) (y : List α), p c = false →
      List.dropWhile p (x ++ c :: y) = List.dropWhile p x ++ c :: y := by
  intro x
  induction x with
  | nil =>
    intro c y hc
    rw [List.nil_append, List.dropWhile_nil, List.nil_append]
    exact List.dropWhile_cons_of_neg (by simp [hc])
  | cons a x2 ih =>
    intro c y hc
    rw [List.cons_append]
    by_cases ha : p a = true
    · rw [List.dropWhile_cons_of_pos ha, List.dropWhile_cons_of_pos ha]
      exact ih c y hc
    · rw [List.dropWhile_cons_of_neg (by simpa using ha),
        List.dropWhile_cons_of_neg (by simpa using ha), List.cons_append]

theorem dropWhile_append_all {α : Type} (p : α → Bool) :
    ∀ (a y : List α), (∀ x ∈ a, p x = true) →
      List.dropWhile p (a ++ y) = List.dropWhile p y := by
  intro a
  induction a with
  | nil => intro y _; rw [List.nil_append]
  | cons b a2 ih =>
    intro y h
    rw [List.cons_append, List.dropWhile_cons_of_pos (h b (by simp))]
    exact ih y (fun x hx => h x (by simp [hx]))

theorem pyRStrip_append_cons (a : Str) (c : Char) (b : Str)
    (hc : isPySpace c = false) :
    pyRStrip (a ++ c :: b) = a ++ c :: pyRStrip b := by
  unfold pyRStrip
  rw [List.reverse_append, List.reverse_cons, List.append_assoc,
    List.singleton_append]
  rw [dropWhile_append_cons isPySpace b.reverse c a.reverse hc]
  rw [List.reverse_append, List.reverse_cons, List.reverse_reverse,
    List.append_assoc, List.singleton_append]

theorem pyRStrip_cons (c : Char) (b : Str) (hc : isPySpace c = false) :
    pyRStrip (c :: b) = c :: pyRStrip b := by
  have h := pyRStrip_append_cons [] c b hc
  simpa using h

theorem pyRStrip_eq_self_of_getLast (l : Str) (c : Char)
    (hl : l.getLast? = some c) (hc : isPySpace c = false) :
    pyRStrip l = l := by
  unfold pyRStrip
  rw [dropWhile_eq_self_of_head isPySpace l.reverse (fun d hd => by
    rw [List.head?_reverse, hl] at hd
    have hcd : c = d := Option.some.injEq c d ▸ hd
    rw [← hcd]
    exact hc)]
  exact List.reverse_reverse l

theorem pyRStrip_append_wsAll (a b : Str) (hb : ∀ c ∈ b, isPySpace c = true) :
    pyRStrip (a ++ b) = pyRStrip a := by
  unfold pyRStrip
  rw [List.reverse_append]
  rw [dropWhile_append_all isPySpace b.reverse a.reverse
    (fun c hc => hb c (by simpa using hc))]

theorem prefix_head?_eq {α : Type} (v u : List α) (hv : v <+: u)
    (hne : v ≠ []) : v.head? = u.head? := by
  obtain ⟨t, rfl⟩ := hv
  exact (head?_append_of_ne_nil v t hne).symm

theorem pyRStrip_ne_nil_of_mem (l : Str) (c : Char) (hc : c ∈ l)
    (hw : isPySpace c = false) : pyRStrip l ≠ [] := by
  intro hcon
  unfold pyRStrip at hcon
  rw [List.reverse_eq_nil_iff] at hcon
  have h2 := List.dropWhile_eq_nil_iff.mp hcon c (by simpa using hc)
  rw [hw] at h2
  cases h2

theorem pyRStrip_head?_eq (l : Str) (h : pyRStrip l ≠ []) :
    (pyRStrip l).head? = l.head? :=
  prefix_head?_eq _ _ (pyRStrip_pref l) h

theorem mem_of_head?_eq_some {α : Type} (l : List α) (c : α)
    (h : l.head? = some c) : c ∈ l := by
  cases l with
  | nil => cases h
  | cons a t =>
    rw [List.head?_cons, Option.some.injEq] at h
    simp [h]

theorem isFenceLine_pyLStrip (l : Str) :
    isFenceLine (pyLStrip l) = isFenceLine l := by
  unfold isFenceLine pyLStrip
  rw [dropWhile_dropWhile]

theorem isTableLine_pyLStrip (l : Str) :
    isTableLine (pyLStrip l) = isTableLine l := by
  unfold isTableLine pyLStrip
  rw [dropWhile_dropWhile]

theorem isHeadingLine_pyLStrip (l : Str) :
    isHeadingLine (pyLStrip l) = isHeadingLine l := by
  unfold isHeadingLine pyLStrip
  rw [dropWhile_dropWhile]

theorem isDashEqLine_pyLStrip (l : Str) :
    isDashEqLine (pyLStrip l) = isDashEqLine l := by
  unfold isDashEqLine pyLStrip
  rw [dropWhile_dropWhile]

theorem blankHeadingLine_pyLStrip (l : Str) :
    blankHeadingLine (pyLStrip l) = blankHeadingLine l := by
  unfold blankHeadingLine
  rw [isHeadingLine_pyLStrip]
  unfold pyLStrip
  rw [dropWhile_dropWhile]

theorem rstrip_dropWhile_cons (l : Str) (c : Char) (r : Str)
    (hd : l.dropWhile isPySpace = c :: r) (hc : isPySpace c = false) :
    (pyRStrip l).dropWhile isPySpace = c :: pyRStrip r := by
  have hl : l = l.takeWhile isPySpace ++ c :: r := by
    rw [← hd, List.takeWhile_append_dropWhile]
  rw [show pyRStrip l = pyRStrip (l.takeWhile isPySpace ++ c :: r) from by
    rw [← hl]]
  rw [pyRStrip_append_cons _ c r hc]
  rw [dropWhile_append_all isPySpace _ _
    (fun x hx => by simpa using List.mem_takeWhile_imp hx)]
  rw [List.dropWhile_cons_of_neg (by simp [hc])]

theorem isFenceLine_structure (l : Str) (h : isFenceLine l = true) :
    ∃ m rest, (m = '`' ∨ m = '~') ∧
      l.dropWhile isPySpace = m :: m :: m :: rest := by
  unfold isFenceLine at h
  rw [Bool.or_eq_true] at h
  rcases h with h | h
  · have h2 := List.isPrefixOf_iff_prefix.mp h
    rw [show str "```" = ['`', '`', '`'] from by decide] at h2
    obtain ⟨rest, hrest⟩ := h2
    exact ⟨'`', rest, Or.inl rfl, hrest.symm⟩
  · have h2 := List.isPrefixOf_iff_prefix.mp h
    rw [show str "~~~" = ['~', '~', '~'] from by decide] at h2
    obtain ⟨rest, hrest⟩ := h2
    exact ⟨'~', rest, Or.inr rfl, hrest.symm⟩

theorem isFenceLine_pyRStrip (l : Str) (h : isFenceLine l = true) :
    isFenceLine (pyRStrip l) = true := by
  obtain ⟨m, rest, hm, hd⟩ := isFenceLine_structure l h
  have hmw : isPySpace m = false := by rcases hm with rfl | rfl <;> decide
  have h1 := rstrip_dropWhile_cons l m (m :: m :: rest) hd hmw
  rw [pyRStrip_cons m _ hmw, pyRStrip_cons m rest hmw] at h1
  unfold isFenceLine
  rw [h1]
  rcases hm with rfl | rfl
  · rw [show str "```" = ['`', '`', '`'] from by decide]
    rw [show List.isPrefixOf ['`', '`', '`']
        ('`' :: '`' :: '`' :: pyRStrip rest) = true from
      List.isPrefixOf_iff_prefix.mpr ⟨pyRStrip rest, rfl⟩]
    rw [Bool.true_or]
  · rw [show str "~~~" = ['~', '~', '~'] from by decide]
    rw [show List.isPrefixOf ['~', '~', '~']
        ('~' :: '~' :: '~' :: pyRStrip rest) = true from
      List.isPrefixOf_iff_prefix.mpr ⟨pyRStrip rest, rfl⟩]
    rw [Bool.or_true]

theorem isTableLine_structure (l : Str) (h : isTableLine l = true) :
    ∃ t2, l.dropWhile isPySpace = '|' :: t2 ∧ t2 ≠ [] ∧
      t2.getLast? = some '|' := by
  unfold isTableLine at h
  cases hd : l.dropWhile isPySpace with
  | nil => rw [hd] at h; cases h
  | cons c t =>
    rw [hd] at h
    simp only [decide_eq_true_eq] at h
    obtain ⟨rfl, h2, h3⟩ := h
    exact ⟨t, rfl, h2, h3⟩

theorem isTableLine_pyRStrip (l : Str) (h : isTableLine l = true) :
    pyRStrip l = l := by
  obtain ⟨t2, hd, hne, hlast⟩ := isTableLine_structure l h
  have hlast2 : l.getLast? = some '|' := by
    have hl : l = l.takeWhile isPySpace ++ '|' :: t2 := by
      rw [← hd, List.takeWhile_append_dropWhile]
    conv_lhs => rw [hl]
    rw [List.getLast?_append_of_ne_nil _ (by simp)]
    cases t2 with
    | nil => exact absurd rfl hne
    | cons b u =>
      rw [List.getLast?_cons_cons]
      exact hlast
  exact pyRStrip_eq_self_of_getLast l '|' hlast2 (by decide)

theorem isDashEqLine_pyRStrip (l : Str) (h : isDashEqLine l = true) :
    isDashEqLine (pyRStrip l) = true := by
  unfold isDashEqLine at h ⊢
  simp only [decide_eq_true_eq] at h ⊢
  obtain ⟨h1, h2⟩ := h
  obtain ⟨d, hd⟩ : ∃ d, l.dropWhile isPySpace = d := ⟨_, rfl⟩
  rw [hd] at h1 h2
  obtain ⟨run, hrun⟩ : ∃ r,
      d.takeWhile (fun c => decide (c = '-' ∨ c = '=')) = r := ⟨_, rfl⟩
  rw [hrun] at h1 h2
  obtain ⟨rest, hrest⟩ : ∃ r,
      d.dropWhile (fun c => decide (c = '-' ∨ c = '=')) = r := ⟨_, rfl⟩
  have hsplit : d = run ++ rest := by
    rw [← hrun, ← hrest, List.takeWhile_append_dropWhile]
  have hdrop : d.drop run.length = rest := by
    conv_lhs => rw [hsplit]
    exact List.drop_left' rfl
  rw [hdrop] at h2
  have hrest_ws : ∀ c ∈ rest, isPySpace c = true := List.all_eq_true.mp h2
  have hrun_p : ∀ c ∈ run, (c = '-' ∨ c = '=') := by
    intro c hc
    rw [← hrun] at hc
    simpa using List.mem_takeWhile_imp hc
  have hrun_ne : run ≠ [] := by
    intro hcon
    rw [hcon] at h1
    simp at h1
  obtain ⟨cl, hcl⟩ : ∃ cl, run.getLast? = some cl := by
    cases hr : run.getLast? with
    | none => exact absurd (List.getLast?_eq_none_iff.mp hr) hrun_ne
    | some c => exact ⟨c, rfl⟩
  have hcl_ws : isPySpace cl = false := by
    rcases hrun_p cl (List.mem_of_getLast?_eq_some hcl) with rfl | rfl <;> decide
  have hrun_head : ∀ c, run.head? = some c → isPySpace c = false := by
    intro c hc
    rcases hrun_p c (mem_of_head?_eq_some run c hc) with rfl | rfl <;> decide
  have hl2 : l = (l.takeWhile isPySpace ++ run) ++ rest := by
    rw [List.append_assoc, ← hsplit, ← hd, List.takeWhile_append_dropWhile]
  have hrs : pyRStrip l = l.takeWhile isPySpace ++ run := by
    conv_lhs => rw [hl2]
    rw [pyRStrip_append_wsAll _ rest hrest_ws]
    apply pyRStrip_eq_self_of_getLast _ cl _ hcl_ws
    rw [List.getLast?_append_of_ne_nil _ hrun_ne]
    exact hcl
  have hd2 : (pyRStrip l).dropWhile isPySpace = run := by
    rw [hrs]
    rw [dropWhile_append_all isPySpace _ _
      (fun x hx => by simpa using List.mem_takeWhile_imp hx)]
    exact dropWhile_eq_self_of_head isPySpace run hrun_head
  rw [hd2]
  have htr : run.takeWhile (fun c => decide (c = '-' ∨ c = '=')) = run :=
    List.takeWhile_eq_self_iff.mpr (fun x hx => by simpa using hrun_p x hx)
  rw [htr]
  refine ⟨h1, ?_⟩
  rw [List.drop_length]
  rfl

theorem isHeadingLine_pyRStrip (l : Str) (hh : isHeadingLine l = true)
    (hbl : blankHeadingLine l = false) :
    isHeadingLine (pyRStrip l) = true := by
  have hblank : ((l.dropWhile isPySpace).drop
      (countLeading '#' (l.dropWhile isPySpace))).all isPySpace = false := by
    unfold blankHeadingLine at hbl
    rw [hh, Bool.true_and] at hbl
    exact hbl
  unfold isHeadingLine at hh ⊢
  simp only [decide_eq_true_eq] at hh ⊢
  obtain ⟨h1, h2, h3⟩ := hh
  obtain ⟨d, hd⟩ : ∃ d, l.dropWhile isPySpace = d := ⟨_, rfl⟩
  rw [hd] at h1 h2 h3 hblank
  obtain ⟨n, hn⟩ : ∃ n, countLeading '#' d = n := ⟨_, rfl⟩
  rw [hn] at h1 h2 h3 hblank
  have htw : d.takeWhile (· = '#') = List.replicate n '#' := by
    have h4 : d.takeWhile (· = '#') =
        List.replicate (d.takeWhile (· = '#')).length '#' :=
      List.eq_replicate_of_mem (fun b hb => by
        simpa using List.mem_takeWhile_imp hb)
    have hn2 : (d.takeWhile (· = '#')).length = n := hn
    rw [h4, hn2]
  obtain ⟨R, hR⟩ : ∃ R, d.dropWhile (· = '#') = R := ⟨_, rfl⟩
  have hsplit : d = List.replicate n '#' ++ R := by
    rw [← htw, ← hR, List.takeWhile_append_dropWhile]
  have hdropn : d.drop n = R := by
    conv_lhs => rw [hsplit]
    exact List.drop_left' (by rw [List.length_replicate])
  rw [hdropn] at hblank
  have hget : d.get? n = R.head? := by
    conv_lhs => rw [hsplit]
    rw [List.get?_append_right (by rw [List.length_replicate])]
    rw [List.length_replicate, Nat.sub_self]
    cases R <;> rfl
  rw [hget] at h3
  obtain ⟨cw, hcw, hcww⟩ : ∃ cw, R.head? = some cw ∧ isPySpace cw = true := by
    cases hR2 : R.head? with
    | none => rw [hR2] at h3; cases h3
    | some c =>
      rw [hR2] at h3
      exact ⟨c, rfl, by simpa using h3⟩
  obtain ⟨x, hxR, hxw⟩ : ∃ x ∈ R, isPySpace x = false := by
    by_contra hcon
    push_neg at hcon
    have h5 : R.all isPySpace = true := List.all_eq_true.mpr (fun x hx => by
      have h6 := hcon x hx
      simpa using h6)
    rw [h5] at hblank
    cases hblank
  have hRr_ne : pyRStrip R ≠ [] := pyRStrip_ne_nil_of_mem R x hxR hxw
  have hRr_head : (pyRStrip R).head? = some cw := by
    rw [pyRStrip_head?_eq R hRr_ne, hcw]
  have hcwne : cw ≠ '#' := by
    intro hcon
    rw [hcon] at hcww
    exact absurd hcww (by decide)
  obtain ⟨m, hm⟩ : ∃ m, n = m + 1 := ⟨n - 1, by omega⟩
  have hl2 : l = (l.takeWhile isPySpace ++ List.replicate m '#') ++ '#' :: R := by
    rw [List.append_assoc]
    rw [show List.replicate m '#' ++ '#' :: R =
        List.replicate (m + 1) '#' ++ R from by
      rw [List.replicate_succ', List.append_assoc, List.singleton_append]]
    rw [← hm, ← hsplit, ← hd, List.takeWhile_append_dropWhile]
  have hrs : pyRStrip l =
      (l.takeWhile isPySpace ++ List.replicate m '#') ++ '#' :: pyRStrip R := by
    conv_lhs => rw [hl2]
    exact pyRStrip_append_cons _ '#' R (by decide)
  have hd2 : (pyRStrip l).dropWhile isPySpace =
      List.replicate (m + 1) '#' ++ pyRStrip R := by
    rw [hrs]
    rw [List.append_assoc]
    rw [dropWhile_append_all isPySpace _ _
      (fun y hy => by simpa using List.mem_takeWhile_imp hy)]
    rw [show List.replicate m '#' ++ '#' :: pyRStrip R =
        List.replicate (m + 1) '#' ++ pyRStrip R from by
      rw [List.replicate_succ', List.append_assoc, List.singleton_append]]
    refine dropWhile_eq_self_of_head isPySpace _ (fun y hy => ?_)
    have h5 : (List.replicate (m + 1) '#' ++ pyRStrip R).head? = some '#' := by
      rw [head?_append_of_ne_nil _ _ (by simp), List.replicate_succ]
      rfl
    rw [h5] at hy
    have h6 : y = '#' := by simpa using hy.symm
    rw [h6]
    decide
  have hcl2 : countLeading '#' (List.replicate (m + 1) '#' ++ pyRStrip R) =
      m + 1 := by
    unfold countLeading
    rw [(takeWhile_replicate_append '#' (m + 1) (pyRStrip R) (by
      rw [hRr_head]
      intro hcon
      exact hcwne (by simpa using hcon))).1]
    rw [List.length_replicate]
  have hget2 : (List.replicate (m + 1) '#' ++ pyRStrip R).get? (m + 1) =
      some cw := by
    rw [List.get?_append_right (by rw [List.length_replicate])]
    rw [List.length_replicate, Nat.sub_self]
    rw [show (pyRStrip R).get? 0 = (pyRStrip R).head? from by
      cases pyRStrip R <;> rfl]
    exact hRr_head
  rw [hd2, hcl2, hget2]
  refine ⟨by omega, by omega, ?_⟩
  simpa using hcww

theorem cleanLine_skip (l : Str)
    (h : isFenceLine l ∨ isTableLine l ∨ isHeadingLine l) : cleanLine l = l := by
  unfold cleanLine
  rw [if_pos h]

theorem cleanLine_not_skip (l : Str)
    (h : ¬ (isFenceLine l ∨ isTableLine l ∨ isHeadingLine l)) :
    cleanLine l =
      (if isDashEqLine ((List.replicate (countLeading ' ' (tabCrToSpace l)) ' ' ++
          collapseSpaces (pyLStrip (tabCrToSpace l))).filter (fun c => ¬ isCtl c))
       then (List.replicate (countLeading ' ' (tabCrToSpace l)) ' ' ++
          collapseSpaces (pyLStrip (tabCrToSpace l))).filter (fun c => ¬ isCtl c)
       else repSub ((List.replicate (countLeading ' ' (tabCrToSpace l)) ' ' ++
          collapseSpaces (pyLStrip (tabCrToSpace l))).filter (fun c => ¬ isCtl c))) := by
  unfold cleanLine
  rw [if_neg h]

theorem cleanLine_shape_fixed (m : Nat) (w : Str)
    (hhead : ∀ c, w.head? = some c → isPySpace c = false)
    (htab : ∀ c ∈ w, isTabCr c = false)
    (hct : ∀ c ∈ w, isCtl c = false)
    (hnd : noDbl w)
    (hbranch : isDashEqLine (List.replicate m ' ' ++ w) = true ∨
      (m ≤ 5 ∧ repSub w = w)) :
    cleanLine (List.replicate m ' ' ++ w) = List.replicate m ' ' ++ w := by
  by_cases hskip : isFenceLine (List.replicate m ' ' ++ w) ∨
      isTableLine (List.replicate m ' ' ++ w) ∨
      isHeadingLine (List.replicate m ' ' ++ w)
  · exact cleanLine_skip _ hskip
  · rw [cleanLine_not_skip _ hskip]
    have htab2 : ∀ c ∈ List.replicate m ' ' ++ w, isTabCr c = false := by
      intro c hc
      rcases List.mem_append.mp hc with h1 | h2
      · rw [List.eq_of_mem_replicate h1]; decide
      · exact htab c h2
    have hl1 : tabCrToSpace (List.replicate m ' ' ++ w) =
        List.replicate m ' ' ++ w :=
      tabCrToSpace_noop _ htab2
    rw [hl1]
    have hwh : w.head? ≠ some ' ' := by
      intro hcon
      exact absurd (hhead ' ' hcon) (by decide)
    have hpair := takeWhile_replicate_append ' ' m w hwh
    have hlead : countLeading ' ' (List.replicate m ' ' ++ w) = m := by
      unfold countLeading
      rw [hpair.1, List.length_replicate]
    have hlst : pyLStrip (List.replicate m ' ' ++ w) = w := by
      unfold pyLStrip
      rw [dropWhile_append_all isPySpace _ _ (fun x hx => by
        rw [List.eq_of_mem_replicate hx]; decide)]
      exact dropWhile_eq_self_of_head isPySpace w hhead
    rw [hlead, hlst]
    rw [collapseSpaces_fixed w hnd]
    have hfil : (List.replicate m ' ' ++ w).filter (fun c => ¬ isCtl c) =
        List.replicate m ' ' ++ w := by
      rw [List.filter_eq_self]
      intro a ha
      rcases List.mem_append.mp ha with h1 | h2
      · rw [List.eq_of_mem_replicate h1]; decide
      · simp [hct a h2]
    rw [hfil]
    rcases hbranch with hde | ⟨hm5, hrs⟩
    · rw [if_pos hde]
    · by_cases hde2 : isDashEqLine (List.replicate m ' ' ++ w) = true
      · rw [if_pos hde2]
      · rw [if_neg hde2]
        cases hm : m with
        | zero => simpa using hrs
        | succ k =>
          rw [repSub_replicate_append ' ' (k + 1) (by omega) w hwh]
          rw [hrs]
          congr 1
          unfold emitRun
          rw [if_neg (by
            rintro ⟨h7, h8⟩
            omega)]
          rw [Nat.add_sub_cancel]

theorem lstrip_replicate_append (m : Nat) (w : Str)
    (hhead : ∀ c, w.head? = some c → isPySpace c = false) :
    pyLStrip (List.replicate m ' ' ++ w) = w := by
  unfold pyLStrip
  rw [dropWhile_append_all isPySpace _ _ (fun x hx => by
    rw [List.eq_of_mem_replicate hx]; decide)]
  exact dropWhile_eq_self_of_head isPySpace w hhead

theorem cleanLine_nil : cleanLine [] = [] := by decide

theorem cleanLine_all_variants (m : Nat) (w : Str)
    (hhead : ∀ c, w.head? = some c → isPySpace c = false)
    (htab : ∀ c ∈ w, isTabCr c = false)
    (hct : ∀ c ∈ w, isCtl c = false)
    (hnd : noDbl w)
    (hbr : isDashEqLine (List.replicate m ' ' ++ w) = true ∨
      (m ≤ 5 ∧ repSub w = w)) :
    cleanLine (List.replicate m ' ' ++ w) = List.replicate m ' ' ++ w ∧
    cleanLine (pyLStrip (List.replicate m ' ' ++ w)) =
      pyLStrip (List.replicate m ' ' ++ w) ∧
    cleanLine (pyRStrip (List.replicate m ' ' ++ w)) =
      pyRStrip (List.replicate m ' ' ++ w) ∧
    cleanLine (pyStrip (List.replicate m ' ' ++ w)) =
      pyStrip (List.replicate m ' ' ++ w) := by
  have hlst : pyLStrip (List.replicate m ' ' ++ w) = w :=
    lstrip_replicate_append m w hhead
  have hdeW : isDashEqLine (List.replicate m ' ' ++ w) = true →
      isDashEqLine w = true := by
    intro hde
    have h1 := isDashEqLine_pyLStrip (List.replicate m ' ' ++ w)
    rw [hlst, hde] at h1
    exact h1
  have hbrW : isDashEqLine (List.replicate 0 ' ' ++ w) = true ∨
      (0 ≤ 5 ∧ repSub w = w) := by
    rcases hbr with hde | ⟨h0, hrep⟩
    · left
      simpa using hdeW hde
    · exact Or.inr ⟨by omega, hrep⟩
  refine ⟨cleanLine_shape_fixed m w hhead htab hct hnd hbr, ?_, ?_, ?_⟩
  · rw [hlst]
    have h2 := cleanLine_shape_fixed 0 w hhead htab hct hnd hbrW
    simpa using h2
  · cases hw : w with
    | nil =>
      subst hw
      have hr0 : pyRStrip (List.replicate m ' ' ++ ([] : Str)) = [] := by
        rw [List.append_nil]
        have h3 := pyRStrip_append_wsAll [] (List.replicate m ' ') (fun c hc => by
          rw [List.eq_of_mem_replicate hc]; decide)
        simpa using h3
      rw [hr0]
      decide
    | cons c0 w2 =>
      subst hw
      have hc0 : isPySpace c0 = false := hhead c0 rfl
      have hww : pyRStrip (c0 :: w2) = c0 :: pyRStrip w2 := pyRStrip_cons c0 w2 hc0
      have hrw : pyRStrip (List.replicate m ' ' ++ c0 :: w2) =
          List.replicate m ' ' ++ c0 :: pyRStrip w2 :=
        pyRStrip_append_cons _ c0 w2 hc0
      rw [hrw]
      have hpre : (c0 :: pyRStrip w2) <+: (c0 :: w2) := by
        rw [← hww]
        exact pyRStrip_pref (c0 :: w2)
      apply cleanLine_shape_fixed m (c0 :: pyRStrip w2)
      · intro c hcx
        rw [List.head?_cons, Option.some.injEq] at hcx
        exact hcx ▸ hc0
      · intro c hcx
        exact htab c (hpre.subset hcx)
      · intro c hcx
        exact hct c (hpre.subset hcx)
      · unfold noDbl at hnd ⊢
        exact List.Chain'.prefix hnd hpre
      · rcases hbr with hde | ⟨hm5, hrep⟩
        · left
          have h4 := isDashEqLine_pyRStrip _ hde
          rw [hrw] at h4
          exact h4
        · exact Or.inr ⟨hm5, repSub_fixed_pref (c0 :: w2) hrep _ hpre⟩
  · unfold pyStrip
    rw [hlst]
    cases hw : w with
    | nil =>
      subst hw
      decide
    | cons c0 w2 =>
      subst hw
      have hc0 : isPySpace c0 = false := hhead c0 rfl
      have hww : pyRStrip (c0 :: w2) = c0 :: pyRStrip w2 := pyRStrip_cons c0 w2 hc0
      rw [hww]
      have hpre : (c0 :: pyRStrip w2) <+: (c0 :: w2) := by
        rw [← hww]
        exact pyRStrip_pref (c0 :: w2)
      have key : cleanLine (List.replicate 0 ' ' ++ (c0 :: pyRStrip w2)) =
          List.replicate 0 ' ' ++ (c0 :: pyRStrip w2) := by
        apply cleanLine_shape_fixed 0 (c0 :: pyRStrip w2)
        · intro c hcx
          rw [List.head?_cons, Option.some.injEq] at hcx
          exact hcx ▸ hc0
        · intro c hcx
          exact htab c (hpre.subset hcx)
        · intro c hcx
          exact hct c (hpre.subset hcx)
        · unfold noDbl at hnd ⊢
          exact List.Chain'.prefix hnd hpre
        · rcases hbrW with hde | ⟨h0, hrep⟩
          · left
            have h4 : isDashEqLine (c0 :: w2) = true := by simpa using hde
            have h5 := isDashEqLine_pyRStrip _ h4
            rw [hww] at h5
            simpa using h5
          · exact Or.inr ⟨by omega,
              repSub_fixed_pref (c0 :: w2) hrep _ hpre⟩
      simpa using key

theorem emitRun_space_shape (n : Nat) :
    ∃ k2, emitRun ' ' n = List.replicate k2 ' ' ∧ k2 ≤ 5 := by
  unfold emitRun
  by_cases h : 5 ≤ n
  · rw [if_pos ⟨by decide, h⟩]
    exact ⟨1, rfl, by omega⟩
  · rw [if_neg (by rintro ⟨h1, h2⟩; omega)]
    exact ⟨n + 1, rfl, by omega⟩

theorem repSub_space_pref (k : Nat) (cb : Str) (hcb : cb.head? ≠ some ' ') :
    ∃ k2, repSub (List.replicate k ' ' ++ cb) =
      List.replicate k2 ' ' ++ repSub cb ∧ k2 ≤ 5 := by
  cases k with
  | zero => exact ⟨0, by simp, by omega⟩
  | succ j =>
    obtain ⟨k2, he, hle⟩ := emitRun_space_shape j
    refine ⟨k2, ?_, hle⟩
    rw [repSub_replicate_append ' ' (j + 1) (by omega) cb hcb,
      Nat.add_sub_cancel, he]

theorem cleanLine_stable (l : Str)
    (hsep : ∀ c ∈ l, isLineSep c = false)
    (hctl : ∀ c ∈ l, isCtl c = true → isAllowedCtl c = true)
    (hbh : blankHeadingLine l = false) :
    cleanLine (cleanLine l) = cleanLine l ∧
    cleanLine (pyLStrip (cleanLine l)) = pyLStrip (cleanLine l) ∧
    cleanLine (pyRStrip (cleanLine l)) = pyRStrip (cleanLine l) ∧
    cleanLine (pyStrip (cleanLine l)) = pyStrip (cleanLine l) := by
  by_cases hskip : isFenceLine l ∨ isTableLine l ∨ isHeadingLine l
  · rw [cleanLine_skip l hskip]
    refine ⟨cleanLine_skip l hskip, ?_, ?_, ?_⟩
    · apply cleanLine_skip
      rcases hskip with h | h | h
      · exact Or.inl (by rw [isFenceLine_pyLStrip]; exact h)
      · exact Or.inr (Or.inl (by rw [isTableLine_pyLStrip]; exact h))
      · exact Or.inr (Or.inr (by rw [isHeadingLine_pyLStrip]; exact h))
    · rcases hskip with h | h | h
      · exact cleanLine_skip _ (Or.inl (isFenceLine_pyRStrip l h))
      · rw [isTableLine_pyRStrip l h]
        exact cleanLine_skip l (Or.inr (Or.inl h))
      · exact cleanLine_skip _
          (Or.inr (Or.inr (isHeadingLine_pyRStrip l h hbh)))
    · unfold pyStrip
      rcases hskip with h | h | h
      · exact cleanLine_skip _ (Or.inl (isFenceLine_pyRStrip _
          (by rw [isFenceLine_pyLStrip]; exact h)))
      · rw [isTableLine_pyRStrip _ (by rw [isTableLine_pyLStrip]; exact h)]
        apply cleanLine_skip
        exact Or.inr (Or.inl (by rw [isTableLine_pyLStrip]; exact h))
      · apply cleanLine_skip
        refine Or.inr (Or.inr (isHeadingLine_pyRStrip _ ?_ ?_))
        · rw [isHeadingLine_pyLStrip]; exact h
        · rw [blankHeadingLine_pyLStrip]; exact hbh
  · obtain ⟨l1, hl1⟩ : ∃ x, tabCrToSpace l = x := ⟨_, rfl⟩
    have hl1tab : ∀ c ∈ l1, isTabCr c = false := by
      intro c hc
      rw [← hl1] at hc
      exact tabCrGo_no_tabcr l false c hc
    have hl1ct : ∀ c ∈ l1, isCtl c = false := by
      intro c hc
      have hc2 : c ∈ tabCrToSpace l := by rw [hl1]; exact hc
      rcases tabCrGo_mem l false c hc2 with h1 | h1
      · by_contra hcon
        have h2 : isCtl c = true := by simpa using hcon
        have h3 := hctl c h1 h2
        unfold isAllowedCtl at h3
        simp only [decide_eq_true_eq] at h3
        rcases h3 with h4 | h4
        · have h5 := tabCrGo_no_tabcr l false c hc2
          rw [h4] at h5
          exact absurd h5 (by decide)
        · rw [hsep c h1] at h4
          cases h4
      · rw [h1]
        decide
    obtain ⟨cb, hcb⟩ : ∃ x, collapseSpaces (pyLStrip l1) = x := ⟨_, rfl⟩
    have hcbsub : ∀ c ∈ cb, c ∈ l1 := by
      intro c hc
      rw [← hcb] at hc
      have h1 := collapseSpacesGo_mem (pyLStrip l1) false c hc
      exact (dropWhile_suffix isPySpace l1).subset h1
    have hcbtab : ∀ c ∈ cb, isTabCr c = false := fun c hc =>
      hl1tab c (hcbsub c hc)
    have hcbct : ∀ c ∈ cb, isCtl c = false := fun c hc =>
      hl1ct c (hcbsub c hc)
    have hcbnd : noDbl cb := by
      rw [← hcb]
      exact collapseSpaces_noDbl (pyLStrip l1)
    have hcbhead : ∀ c, cb.head? = some c → isPySpace c = false := by
      intro c hc
      rw [← hcb] at hc
      rw [collapseSpaces_head (pyLStrip l1)] at hc
      exact dropWhile_head_not isPySpace l1 c hc
    obtain ⟨k, hk⟩ : ∃ x, countLeading ' ' l1 = x := ⟨_, rfl⟩
    have hform : cleanLine l =
        if isDashEqLine (List.replicate k ' ' ++ cb)
        then List.replicate k ' ' ++ cb
        else repSub (List.replicate k ' ' ++ cb) := by
      rw [cleanLine_not_skip l hskip, hl1, hk, hcb]
      have hfil : (List.replicate k ' ' ++ cb).filter (fun c => ¬ isCtl c) =
          List.replicate k ' ' ++ cb := by
        rw [List.filter_eq_self]
        intro a ha
        rcases List.mem_append.mp ha with h1 | h2
        · rw [List.eq_of_mem_replicate h1]; decide
        · simp [hcbct a h2]
      rw [hfil]
    by_cases hDE : isDashEqLine (List.replicate k ' ' ++ cb) = true
    · rw [hform, if_pos hDE]
      exact cleanLine_all_variants k cb hcbhead hcbtab hcbct hcbnd (Or.inl hDE)
    · rw [hform, if_neg hDE]
      have hcbh2 : cb.head? ≠ some ' ' := by
        intro hcon
        exact absurd (hcbhead ' ' hcon) (by decide)
      obtain ⟨k2, hk2, hk2le⟩ := repSub_space_pref k cb hcbh2
      rw [hk2]
      have hw_head : ∀ c, (repSub cb).head? = some c → isPySpace c = false := by
        intro c hc
        rw [repSub_head] at hc
        exact hcbhead c hc
      have hw_tab : ∀ c ∈ repSub cb, isTabCr c = false := fun c hc =>
        hcbtab c (repSub_mem cb c hc)
      have hw_ct : ∀ c ∈ repSub cb, isCtl c = false := fun c hc =>
        hcbct c (repSub_mem cb c hc)
      have hw_nd : noDbl (repSub cb) := repSub_noDbl cb hcbnd
      exact cleanLine_all_variants k2 (repSub cb) hw_head hw_tab hw_ct hw_nd
        (Or.inr ⟨hk2le, repSub_idem cb⟩)

theorem splitLinesGo_lines : ∀ (N : Nat) (s cur : Str), s.length ≤ N →
    (∀ c ∈ cur, isLineSep c = false) →
    ∀ l ∈ splitLinesGo cur s, ∀ c ∈ l,
      (c ∈ cur ∨ c ∈ s) ∧ isLineSep c = false := by
  intro N
  induction N with
  | zero =>
    intro s cur hs hcur l hl c hc
    have h0 : s = [] := List.length_eq_zero.mp (Nat.le_zero.mp hs)
    subst h0
    rw [splitLinesGo] at hl
    split at hl
    · cases hl
    · have h1 : l = cur.reverse := by simpa using hl
      subst h1
      have h2 : c ∈ cur := by simpa using hc
      exact ⟨Or.inl h2, hcur c h2⟩
  | succ N ih =>
    intro s cur hs hcur l hl c hc
    cases s with
    | nil =>
      rw [splitLinesGo] at hl
      split at hl
      · cases hl
      · have h1 : l = cur.reverse := by simpa using hl
        subst h1
        have h2 : c ∈ cur := by simpa using hc
        exact ⟨Or.inl h2, hcur c h2⟩
    | cons c1 rest =>
      cases rest with
      | nil =>
        rw [splitLinesGo] at hl
        split at hl
        · have h1 : l = cur.reverse := by simpa using hl
          subst h1
          have h2 : c ∈ cur := by simpa using hc
          exact ⟨Or.inl h2, hcur c h2⟩
        · rename_i hnsep
          have h1 : l = (c1 :: cur).reverse := by simpa using hl
          subst h1
          have h2 : c ∈ c1 :: cur := by
            rw [List.mem_reverse] at hc
            exact hc
          rcases List.mem_cons.mp h2 with rfl | h3
          · exact ⟨Or.inr (by simp), by simpa using hnsep⟩
          · exact ⟨Or.inl h3, hcur c h3⟩
      | cons c2 t =>
        rw [splitLinesGo] at hl
        split at hl
        · rcases List.mem_cons.mp hl with rfl | h4
          · have h2 : c ∈ cur := by simpa using hc
            exact ⟨Or.inl h2, hcur c h2⟩
          · have h5 := ih t [] (by simp at hs ⊢; omega) (by simp) l h4 c hc
            rcases h5 with ⟨h6 | h6, h7⟩
            · cases h6
            · exact ⟨Or.inr (by simp [h6]), h7⟩
        · split at hl
          · rcases List.mem_cons.mp hl with rfl | h4
            · have h2 : c ∈ cur := by simpa using hc
              exact ⟨Or.inl h2, hcur c h2⟩
            · have h5 := ih (c2 :: t) [] (by simp at hs ⊢; omega) (by simp)
                l h4 c hc
              rcases h5 with ⟨h6 | h6, h7⟩
              · cases h6
              · exact ⟨Or.inr (List.mem_cons_of_mem c1 h6), h7⟩
          · rename_i hn1 hn2
            have h5 := ih (c2 :: t) (c1 :: cur) (by simp at hs ⊢; omega)
              (fun d hd => by
                rcases List.mem_cons.mp hd with rfl | h6
                · simpa using hn2
                · exact hcur d h6) l hl c hc
            rcases h5 with ⟨h6 | h6, h7⟩
            · rcases List.mem_cons.mp h6 with rfl | h8
              · exact ⟨Or.inr (by simp), h7⟩
              · exact ⟨Or.inl h8, h7⟩
            · exact ⟨Or.inr (List.mem_cons_of_mem c1 h6), h7⟩

theorem splitLines_lines (s : Str) : ∀ l ∈ splitLines s, ∀ c ∈ l,
    c ∈ s ∧ isLineSep c = false := by
  intro l hl c hc
  have h := splitLinesGo_lines s.length s [] (Nat.le_refl _) (by simp) l hl c hc
  rcases h with ⟨h1 | h1, h2⟩
  · cases h1
  · exact ⟨h1, h2⟩

theorem cleanLine_mem (l : Str) (c : Char) (hc : c ∈ cleanLine l) :
    c ∈ l ∨ c = ' ' := by
  by_cases hskip : isFenceLine l ∨ isTableLine l ∨ isHeadingLine l
  · rw [cleanLine_skip l hskip] at hc
    exact Or.inl hc
  · rw [cleanLine_not_skip l hskip] at hc
    have common : ∀ x, x ∈ (List.replicate (countLeading ' ' (tabCrToSpace l)) ' ' ++
        collapseSpaces (pyLStrip (tabCrToSpace l))).filter (fun d => ¬ isCtl d) →
        x ∈ l ∨ x = ' ' := by
      intro x hx
      have h1 := List.mem_of_mem_filter hx
      rcases List.mem_append.mp h1 with h2 | h2
      · exact Or.inr (List.eq_of_mem_replicate h2)
      · have h3 := collapseSpacesGo_mem (pyLStrip (tabCrToSpace l)) false x h2
        have h4 : x ∈ tabCrToSpace l := (dropWhile_suffix isPySpace _).subset h3
        exact tabCrGo_mem l false x h4
    split at hc
    · exact common c hc
    · exact common c (repSub_mem _ c hc)

theorem mem_modHead (f : Str → Str) (ls : List Str) (x : Str)
    (hx : x ∈ modHead f ls) : (∃ y ∈ ls, x = f y) ∨ x ∈ ls := by
  cases ls with
  | nil => cases hx
  | cons a t =>
    rcases List.mem_cons.mp hx with rfl | h1
    · exact Or.inl ⟨a, by simp, rfl⟩
    · exact Or.inr (List.mem_cons_of_mem a h1)

theorem mem_modLast (f : Str → Str) : ∀ (ls : List Str) (x : Str),
    x ∈ modLast f ls → (∃ y ∈ ls, x = f y) ∨ x ∈ ls := by
  intro ls
  induction ls with
  | nil => intro x hx; cases hx
  | cons a t ih =>
    intro x hx
    cases t with
    | nil =>
      have h1 : x = f a := by simpa [modLast] using hx
      exact Or.inl ⟨a, by simp, h1⟩
    | cons b t2 =>
      rw [show modLast f (a :: b :: t2) = a :: modLast f (b :: t2) from rfl] at hx
      rcases List.mem_cons.mp hx with rfl | h1
      · exact Or.inr (by simp)
      · rcases ih x h1 with ⟨y, hy, hxy⟩ | h2
        · exact Or.inl ⟨y, List.mem_cons_of_mem a hy, hxy⟩
        · exact Or.inr (List.mem_cons_of_mem a h2)

theorem dropTrailWS_subset (ls : List Str) (x : Str)
    (hx : x ∈ dropTrailWS ls) : x ∈ ls := by
  unfold dropTrailWS at hx
  rw [List.mem_reverse] at hx
  have h1 := (dropWhile_suffix wsLine ls.reverse).subset hx
  simpa using h1

theorem mem_edgeTrim (ls : List Str) (x : Str) (hx : x ∈ edgeTrim ls) :
    ∃ y ∈ ls, x = y ∨ x = pyLStrip y ∨ x = pyRStrip y ∨ x = pyStrip y := by
  unfold edgeTrim at hx
  have hBsub : ∀ z, z ∈ dropTrailWS (dropLeadWS ls) → z ∈ ls := by
    intro z hz
    have h1 := dropTrailWS_subset _ z hz
    exact (dropWhile_suffix wsLine ls).subset h1
  rcases mem_modLast pyRStrip _ x hx with ⟨z, hz, rfl⟩ | h1
  · rcases mem_modHead pyLStrip _ z hz with ⟨y, hy, rfl⟩ | h2
    · exact ⟨y, hBsub y hy, Or.inr (Or.inr (Or.inr rfl))⟩
    · exact ⟨z, hBsub z h2, Or.inr (Or.inr (Or.inl rfl))⟩
  · rcases mem_modHead pyLStrip _ x h1 with ⟨y, hy, rfl⟩ | h2
    · exact ⟨y, hBsub y hy, Or.inr (Or.inl rfl)⟩
    · exact ⟨x, hBsub x h2, Or.inl rfl⟩

theorem dropTrailWS_getLast (P : List Str) (z : Str)
    (hz : (dropTrailWS P).getLast? = some z) : wsLine z = false := by
  unfold dropTrailWS at hz
  have h2 := List.head?_reverse ((List.dropWhile wsLine P.reverse).reverse)
  rw [List.reverse_reverse] at h2
  rw [← h2] at hz
  exact dropWhile_head_not wsLine P.reverse z hz

theorem modLast_getLast (f : Str → Str) : ∀ (A : List Str) (z : Str),
    (modLast f A).getLast? = some z → ∃ y, A.getLast? = some y ∧ z = f y := by
  intro A
  induction A with
  | nil => intro z hz; simp [modLast] at hz
  | cons a t ih =>
    intro z hz
    cases t with
    | nil =>
      have h1 : f a = z := by simpa [modLast] using hz
      exact ⟨a, by simp, h1.symm⟩
    | cons b t2 =>
      rw [show modLast f (a :: b :: t2) = a :: modLast f (b :: t2) from rfl] at hz
      obtain ⟨x0, X2, hX⟩ : ∃ x0 X2, modLast f (b :: t2) = x0 :: X2 := by
        cases hX2 : modLast f (b :: t2) with
        | nil =>
          exfalso
          cases t2 <;> simp [modLast] at hX2
        | cons x0 X2 => exact ⟨x0, X2, rfl⟩
      rw [hX, List.getLast?_cons_cons, ← hX] at hz
      obtain ⟨y, hy1, hy2⟩ := ih z hz
      refine ⟨y, ?_, hy2⟩
      rw [List.getLast?_cons_cons]
      exact hy1

theorem modHead_getLast (f : Str → Str) (B : List Str) (y : Str)
    (hy : (modHead f B).getLast? = some y) :
    ∃ y0, B.getLast? = some y0 ∧ (y = y0 ∨ y = f y0) := by
  cases B with
  | nil => simp [modHead] at hy
  | cons b t =>
    cases t with
    | nil =>
      have h1 : f b = y := by simpa [modHead] using hy
      exact ⟨b, by simp, Or.inr h1.symm⟩
    | cons b2 t2 =>
      rw [show modHead f (b :: b2 :: t2) = f b :: b2 :: t2 from rfl,
        List.getLast?_cons_cons] at hy
      exact ⟨y, by rw [List.getLast?_cons_cons]; exact hy, Or.inl rfl⟩

theorem pyRStrip_ne_nil_of_not_ws (y : Str) (hy : wsLine y = false) :
    pyRStrip y ≠ [] := by
  obtain ⟨x, hx1, hx2⟩ : ∃ x ∈ y, isPySpace x = false := by
    by_contra hcon
    push_neg at hcon
    have h1 : wsLine y = true :=
      List.all_eq_true.mpr (fun x hx => by simpa using hcon x hx)
    rw [h1] at hy
    cases hy
  exact pyRStrip_ne_nil_of_mem y x hx1 hx2

theorem edgeTrim_getLast_ne_nil (ls : List Str) :
    (edgeTrim ls).getLast? ≠ some [] := by
  intro hcon
  unfold edgeTrim at hcon
  obtain ⟨y, hy1, hy2⟩ := modLast_getLast pyRStrip _ _ hcon
  obtain ⟨y0, hy01, hy02⟩ := modHead_getLast pyLStrip _ y hy1
  have hws0 : wsLine y0 = false := dropTrailWS_getLast _ y0 hy01
  rcases hy02 with rfl | rfl
  · exact pyRStrip_ne_nil_of_not_ws y hws0 hy2.symm
  · have hws1 : wsLine (pyLStrip y0) = false := by
      rw [wsLine_pyLStrip]
      exact hws0
    exact pyRStrip_ne_nil_of_not_ws _ hws1 hy2.symm

theorem map_eq_self_of_mem {α : Type} (f : α → α) (ls : List α)
    (h : ∀ x ∈ ls, f x = x) : ls.map f = ls := by
  induction ls with
  | nil => rfl
  | cons a t ih =>
    rw [List.map_cons, h a (by simp), ih (fun x hx => h x (by simp [hx]))]

/-- C7: for every text whose control characters are all tabs or line breaks
and which has no blank heading line, `clean_chunk_text` is idempotent:
normalizing an already-normalized chunk changes nothing. -/
theorem c7_clean_idempotent (t : Str) (hctl : ctlFree t)
    (hbh : noBlankHeading t) :
    clean_chunk_text (clean_chunk_text t) = clean_chunk_text t := by
  obtain ⟨M, hM⟩ : ∃ M, (splitLines t).map cleanLine = M := ⟨_, rfl⟩
  have hstable : ∀ x ∈ edgeTrim M, cleanLine x = x := by
    intro x hx
    obtain ⟨y, hy, hcase⟩ := mem_edgeTrim M x hx
    rw [← hM] at hy
    obtain ⟨l, hl, rfl⟩ := List.mem_map.mp hy
    have h1 : ∀ c ∈ l, isLineSep c = false := fun c hc =>
      (splitLines_lines t l hl c hc).2
    have h2 : ∀ c ∈ l, isCtl c = true → isAllowedCtl c = true := fun c hc =>
      hctl c (splitLines_lines t l hl c hc).1
    have h3 : blankHeadingLine l = false := hbh l hl
    obtain ⟨s1, s2, s3, s4⟩ := cleanLine_stable l h1 h2 h3
    rcases hcase with rfl | rfl | rfl | rfl
    · exact s1
    · exact s2
    · exact s3
    · exact s4
  have hsepfree : ∀ x ∈ edgeTrim M, ∀ c ∈ x, isLineSep c = false := by
    intro x hx c hc
    obtain ⟨y, hy, hcase⟩ := mem_edgeTrim M x hx
    rw [← hM] at hy
    obtain ⟨l, hl, rfl⟩ := List.mem_map.mp hy
    have hcy : c ∈ cleanLine l := by
      rcases hcase with rfl | rfl | rfl | rfl
      · exact hc
      · exact (dropWhile_suffix isPySpace _).subset hc
      · exact (pyRStrip_pref _).subset hc
      · exact (dropWhile_suffix isPySpace _).subset
          ((pyRStrip_pref _).subset hc)
    rcases cleanLine_mem l c hcy with h4 | rfl
    · exact (splitLines_lines t l hl c h4).2
    · decide
  have hlast := edgeTrim_getLast_ne_nil M
  unfold clean_chunk_text
  rw [hM]
  have hz : pyStrip (joinNL M) = joinNL (edgeTrim M) := pyStrip_joinNL M
  rw [hz]
  rw [splitLines_joinNL (edgeTrim M) hsepfree hlast]
  rw [map_eq_self_of_mem cleanLine (edgeTrim M) hstable]
  rw [← hz]
  exact pyStrip_idem (joinNL M)

/-- C7 (counterexample): `clean_chunk_text` is not idempotent on arbitrary
input.  A NUL control character leaves a double space behind after removal
(collapsed only by the next pass), and a blank heading line at the end of the
text is demoted by the final `strip()` to a non-heading line that the next
pass normalizes differently. -/
theorem c7_counterexample :
    clean_chunk_text (clean_chunk_text (str "a \x00 b")) ≠
      clean_chunk_text (str "a \x00 b") ∧
    clean_chunk_text (clean_chunk_text (str "x\n      ## ")) ≠
      clean_chunk_text (str "x\n      ## ") := by
  decide

/-- C7 (witness): the idempotence theorem applied at a concrete input whose
control characters are all tabs or line breaks and which has no blank
heading line. -/
theorem c7_clean_idempotent_witness :
    ctlFree (str "  # Title\n\nhello   world") ∧
    noBlankHeading (str "  # Title\n\nhello   world") ∧
    clean_chunk_text (clean_chunk_text (str "  # Title\n\nhello   world")) =
      clean_chunk_text (str "  # Title\n\nhello   world") :=
  ⟨by unfold ctlFree; decide, by unfold noBlankHeading; decide,
    c7_clean_idempotent _ (by unfold ctlFree; decide)
      (by unfold noBlankHeading; decide)⟩

end DocChunk
